import Mathlib

/-!
# Verification of the static-analysis core (extractor / call-graph builder / DB correlator)

Shallow embedding of the Python sources:
* `src/parser/java_ast_parser.py`   (structural extractor, `parse_file`)
* `src/parser/call_graph_builder.py` (call-graph builder: layer classification,
  call-site resolution, graph construction, endpoints, chain/tree/cycle queries)
* `src/analyzer/db_access_analyzer.py` (DB access correlator: query matching,
  used-column extraction)

Python strings are modelled as `List Char` (`Str`); Python dicts used only
through key lookup are modelled as association lists with prepend-on-write and
first-match `List.lookup` (a later write shadows an earlier one, exactly the
dict semantics the source relies on); Python sets whose use is only membership
and union are modelled as lists with dedup-style unions.  External collaborators
(the tree-sitter parse, the regex helpers over raw annotation text, the SQL
dialect strategy, file reading) are parameters of the embedded functions, as the
spec designates them external interfaces.
-/

namespace ApplyCrypto

/-- Python `str`, modelled as a list of characters. -/
abbrev Str := List Char

/-- ASCII lower-casing of one character (Python `str.lower` on the identifiers
involved here, which are ASCII). -/
def lowerChar (c : Char) : Char :=
  if 'A' ≤ c ∧ c ≤ 'Z' then Char.ofNat (c.toNat + 32) else c

/-- Python `s.lower()`. -/
def lowerStr (s : Str) : Str := s.map lowerChar

/-- Python substring test `needle in hay`. -/
def hasSubstr (hay needle : Str) : Bool :=
  match hay with
  | [] => needle.isEmpty
  | _ :: t => needle.isPrefixOf hay || hasSubstr t needle

/-- Python `t.split('<')[0]` applied under the guard `'<' in t`: the generic
parameters of a type are stripped to the base type (`call_graph_builder.py`
lines 204-206, 237-239, 246-248). -/
def stripGenerics (t : Str) : Str :=
  if t.contains '<' then t.takeWhile (fun c => c ≠ '<') else t

/-! ## Data model (`models/method.py`, `java_ast_parser.py` `ClassInfo`) -/

/-- `Parameter` dataclass from `models/method.py`. -/
structure Parameter where
  name : Str
  type : Str
  is_varargs : Bool := false
deriving DecidableEq, Repr

/-- `LocalVariable` dataclass from `models/method.py`. -/
structure LocalVariable where
  name : Str
  type : Str
deriving DecidableEq, Repr

/-- `Method` dataclass from `models/method.py` (the fields consumed by the
call-graph builder). -/
structure Method where
  name : Str
  return_type : Str
  parameters : List Parameter := []
  local_variables : List LocalVariable := []
  annotations : List Str := []
  method_calls : List Str := []
deriving DecidableEq, Repr

/-- A field entry of a `ClassInfo`: the source stores fields as dicts and the
builder reads `field.get("name", "")` and `field.get("type", "")`. -/
structure FieldRec where
  name : Str
  type : Str
deriving DecidableEq, Repr

/-- `ClassInfo` dataclass from `java_ast_parser.py`. -/
structure ClassInfo where
  name : Str
  package : Str := []
  superclass : Option Str := none
  interfaces : List Str := []
  annotations : List Str := []
  fields : List FieldRec := []
  methods : List Method := []
  file_path : Str := []
deriving DecidableEq, Repr

/-! ## Layer classification (`CallGraphBuilder._classify_layer`, lines 340-421) -/

/-- `LAYER_PATTERNS` class attribute (`call_graph_builder.py` lines 111-117);
an ordered table, iterated in insertion order. -/
def LAYER_PATTERNS : List (Str × List Str) :=
  [ ("Controller".data, ["Controller".data, "RestController".data, "WebController".data]),
    ("Service".data, ["Service".data, "BusinessService".data, "ApplicationService".data]),
    ("Repository".data, ["Repository".data, "JpaRepository".data, "CrudRepository".data,
      "DAO".data, "Dao".data, "JdbcDao".data, "JdbcTemplateDao".data]),
    ("Mapper".data, ["Mapper".data, "MyBatisMapper".data, "SqlMapper".data]),
    ("Entity".data, ["Entity".data, "Domain".data, "Model".data, "POJO".data]) ]

/-- Class-simple-name pattern lookup: the first layer in `LAYER_PATTERNS` one of
whose patterns occurs in the class name (lines 375-380). -/
def findLayerByName (className : Str) : Option Str :=
  (LAYER_PATTERNS.find? (fun p => p.2.any (fun pat => hasSubstr className pat))).map (·.1)

/-- Implemented-interface classification (lines 382-394): the first interface
matching one of the substring rules decides. -/
def classifyByInterface : List Str → Option Str
  | [] => none
  | i :: rest =>
    let il := lowerStr i
    if hasSubstr il "mapper".data || hasSubstr il "sqlmapper".data then some "Mapper".data
    else if hasSubstr il "repository".data || hasSubstr il "jparepository".data then
      some "Repository".data
    else if hasSubstr il "crudrepository".data || hasSubstr il "pagerepository".data then
      some "Repository".data
    else classifyByInterface rest

/-- Package-name classification (lines 396-409); `pkg` is the already lower-cased
package name. -/
def classifyByPackage (pkg : Str) : Option Str :=
  if hasSubstr pkg "controller".data || hasSubstr pkg "web".data || hasSubstr pkg "api".data then
    some "Controller".data
  else if hasSubstr pkg "service".data || hasSubstr pkg "business".data then some "Service".data
  else if hasSubstr pkg "mapper".data || hasSubstr pkg "mybatis".data then some "Mapper".data
  else if hasSubstr pkg "repository".data || hasSubstr pkg "jpa".data then some "Repository".data
  else if hasSubstr pkg "dao".data || hasSubstr pkg "data".data then some "DAO".data
  else if hasSubstr pkg "entity".data || hasSubstr pkg "domain".data
      || hasSubstr pkg "model".data || hasSubstr pkg "beans".data then some "Entity".data
  else none

/-- Field-type heuristic (lines 411-419): the first field whose lowered declared
type matches one of the substring rules decides. -/
def classifyByFields : List FieldRec → Option Str
  | [] => none
  | f :: rest =>
    let ft := lowerStr f.type
    if hasSubstr ft "entitymanager".data || hasSubstr ft "entitymanagerfactory".data then
      some "Repository".data
    else if hasSubstr ft "sqlsession".data || hasSubstr ft "sqlsessiontemplate".data then
      some "Mapper".data
    else if hasSubstr ft "jdbctemplate".data || hasSubstr ft "datasource".data then
      some "DAO".data
    else classifyByFields rest

/-- `CallGraphBuilder._classify_layer` (lines 340-421): a pure, total function of
the class and method facts, evaluated annotation rules first, then class-name
patterns, then interfaces, then package keywords, then field types, with
`Unknown` as the default. -/
def classifyLayer (cls : ClassInfo) (m : Method) : Str :=
  let anns := (cls.annotations ++ m.annotations).map lowerStr
  if anns.any (fun a => hasSubstr a "controller".data || hasSubstr a "restcontroller".data) then
    "Controller".data
  else if anns.any (fun a => hasSubstr a "service".data) then "Service".data
  else if anns.any (fun a => hasSubstr a "mapper".data) then "Mapper".data
  else if anns.any (fun a => hasSubstr a "repository".data) then "Repository".data
  else if anns.any (fun a => hasSubstr a "entity".data || hasSubstr a "table".data) then
    "Entity".data
  else match findLayerByName cls.name with
  | some l => l
  | none =>
    match classifyByInterface cls.interfaces with
    | some l => l
    | none =>
      match classifyByPackage (lowerStr cls.package) with
      | some l => l
      | none =>
        match classifyByFields cls.fields with
        | some l => l
        | none => "Unknown".data

/-! ## Endpoint extraction (`CallGraphBuilder._extract_endpoint`, lines 581-647) -/

/-- `Endpoint` dataclass (`call_graph_builder.py` lines 26-67). -/
structure Endpoint where
  path : Str
  http_method : Str
  method_signature : Str
  class_name : Str
  method_name : Str
  file_path : Str
deriving DecidableEq, Repr

/-- Python `s.startswith('/')` as used at lines 623-625. -/
def startsWithSlash : Str → Bool
  | [] => false
  | c :: _ => c == '/'

/-- Python `s.endswith('/')` as used at lines 623-625. -/
def endsWithSlash (s : Str) : Bool :=
  match s.getLast? with
  | some c => c == '/'
  | none => false

/-- The class-path/method-path combination of `_extract_endpoint`
(lines 620-634): when both are non-empty, a duplicated joining slash is dropped
and a missing one is inserted; otherwise the non-empty one (or the empty
string) is returned. -/
def combinePaths (classPath methodPath : Str) : Str :=
  if classPath ≠ [] ∧ methodPath ≠ [] then
    if endsWithSlash classPath ∧ startsWithSlash methodPath then
      classPath ++ methodPath.drop 1
    else if ¬ endsWithSlash classPath ∧ ¬ startsWithSlash methodPath then
      classPath ++ '/' :: methodPath
    else classPath ++ methodPath
  else if classPath ≠ [] then classPath
  else if methodPath ≠ [] then methodPath
  else []

/-- The annotation scan of `_extract_endpoint` (lines 598-617): walk the
method's annotation names in order; for the first one whose full text yields an
HTTP verb, return that verb together with the extracted method-level path
fragment (empty when absent), and stop.  `verbOf` and `pathOf` stand for the
regex helpers `_extract_http_method_from_annotation` and
`_extract_path_from_annotation`; `annFull` stands for the full-text map
obtained from `_get_annotation_text_from_file` with the annotation name itself
as fallback (line 607). -/
def findVerbAnn (verbOf pathOf : Str → Option Str) (annFull : Str → Str) :
    List Str → Option (Str × Str)
  | [] => none
  | a :: rest =>
    let full := annFull a
    match verbOf full with
    | some v => some (v, (pathOf full).getD [])
    | none => findVerbAnn verbOf pathOf annFull rest

/-- `CallGraphBuilder._extract_endpoint` (lines 581-647): a method yields an
`Endpoint` exactly when one of its annotations yields an HTTP verb; the
endpoint's path is the combination of the class-level and method-level paths. -/
def extractEndpoint (verbOf pathOf : Str → Option Str) (annFull : Str → Str)
    (cls : ClassInfo) (m : Method) (classPath : Str) : Option Endpoint :=
  match findVerbAnn verbOf pathOf annFull m.annotations with
  | none => none
  | some (v, mp) =>
    some { path := combinePaths classPath mp
           http_method := v
           method_signature := cls.name ++ '.' :: m.name
           class_name := cls.name
           method_name := m.name
           file_path := cls.file_path }

/-! ## Call-site resolution (`CallGraphBuilder.build_call_graph`, lines 252-309) -/

/-- Python `call.split('.')`: the list of dot-separated segments (`[""]` for the
empty string, and empty segments around consecutive or leading/trailing dots). -/
def splitOnDot : Str → List Str
  | [] => [[]]
  | c :: rest =>
    let r := splitOnDot rest
    if c = '.' then [] :: r
    else
      match r with
      | [] => [[c]]
      | h :: t => (c :: h) :: t

/-- `CallRelation` (`models/call_relation.py`): one resolved caller/callee pair. -/
structure CallRelation where
  caller : Str
  callee : Str
  caller_file : Str
  callee_file : Str
deriving DecidableEq, Repr

/-- The call-site resolution of `build_call_graph` (lines 252-309), for one
normalized call string of a method of class `clsName` (file `clsFile`):
`classFiles` is the class-name → file map induced by `class_info_map`,
`fieldMap` the current class's field-name → base-type map, `varMap` the
method's parameter/local-variable → base-type map.  Returns the callee
signature and callee file. -/
def resolveCall (classFiles : List (Str × Str)) (clsName clsFile : Str)
    (fieldMap varMap : List (Str × Str)) (call : Str) : Str × Str :=
  if call.contains '.' then
    let parts := splitOnDot call
    if 2 ≤ parts.length then
      let objectName := parts.headD []
      let calleeMethod := parts.getLastD []
      match fieldMap.lookup objectName with
      | some fieldType =>
        match classFiles.lookup fieldType with
        | some f => (fieldType ++ '.' :: calleeMethod, f)
        | none => (fieldType ++ '.' :: calleeMethod, clsFile)
      | none =>
        match varMap.lookup objectName with
        | some varType =>
          match classFiles.lookup varType with
          | some f => (varType ++ '.' :: calleeMethod, f)
          | none => (varType ++ '.' :: calleeMethod, clsFile)
        | none => (call, clsFile)
    else (clsName ++ '.' :: call, clsFile)
  else (clsName ++ '.' :: call, clsFile)

/-! ## The call graph and the build pass (`CallGraphBuilder.build_call_graph`,
lines 159-338) -/

/-- The per-node metadata a graph node carries (`add_node` keyword arguments,
lines 316-330). -/
structure NodeAttrs where
  class_name : Str
  file_path : Str
  layer : Str
deriving DecidableEq, Repr

/-- The networkx `DiGraph` as used by the builder: insertion-ordered nodes with
attributes and an insertion-ordered duplicate-free edge list. -/
structure Graph where
  nodes : List (Str × NodeAttrs)
  edges : List (Str × Str)
deriving DecidableEq, Repr

/-- The empty `nx.DiGraph()` (line 170). -/
def emptyGraph : Graph := ⟨[], []⟩

/-- `node in graph` (networkx membership). -/
def Graph.hasNode (g : Graph) (n : Str) : Bool := (g.nodes.lookup n).isSome

/-- `graph.add_node(n, ...)`: a no-op when the node already exists (the builder
guards with `if ... not in self.call_graph`, lines 314, 323). -/
def Graph.addNodeIfAbsent (g : Graph) (n : Str) (a : NodeAttrs) : Graph :=
  if (g.nodes.lookup n).isSome then g else { g with nodes := g.nodes ++ [(n, a)] }

/-- `graph.add_edge(u, v)`: duplicate edges are idempotent. -/
def Graph.addEdge (g : Graph) (u v : Str) : Graph :=
  if (u, v) ∈ g.edges then g else { g with edges := g.edges ++ [(u, v)] }

/-- `graph.successors(n)` in edge-insertion order. -/
def Graph.succ (g : Graph) (n : Str) : List Str :=
  (g.edges.filter (fun e => e.1 == n)).map (·.2)

/-- `graph.predecessors(n)` in edge-insertion order. -/
def Graph.pred (g : Graph) (n : Str) : List Str :=
  (g.edges.filter (fun e => e.2 == n)).map (·.1)

/-- One `method_metadata` entry (lines 216-223). -/
structure MethodMeta where
  class_name : Str
  method : Method
  file_path : Str
  package : Str
  annotations : List Str
  layer : Str
deriving DecidableEq, Repr

/-- The node attributes taken from `method_metadata.get(sig, {})` with the
defaults `class_name=""`, `file_path=""`, `layer="Unknown"` (lines 315-330). -/
def attrsFromMeta (md : List (Str × MethodMeta)) (k : Str) : NodeAttrs :=
  match md.lookup k with
  | some m => ⟨m.class_name, m.file_path, m.layer⟩
  | none => ⟨[], [], "Unknown".data⟩

/-- Adding one `CallRelation` to the graph (lines 312-333): both endpoints are
inserted (if absent) with their metadata-derived attributes, then the edge. -/
def addRelation (md : List (Str × MethodMeta)) (g : Graph) (rel : CallRelation) : Graph :=
  ((g.addNodeIfAbsent rel.caller (attrsFromMeta md rel.caller)).addNodeIfAbsent
      rel.callee (attrsFromMeta md rel.callee)).addEdge rel.caller rel.callee

/-- The caller → callee graph population loop (lines 311-333). -/
def buildGraphFromRelations (md : List (Str × MethodMeta)) (rels : List CallRelation) :
    Graph :=
  rels.foldl (addRelation md) emptyGraph

/-- `all_classes` accumulation over the parsed files (lines 177-185); `parse`
stands for `parse_file` + `extract_class_info` of the external tree-sitter
parser, `none` being a parse error (the file is skipped, line 180-182). -/
def allClasses (parse : Str → Option (List ClassInfo)) (files : List Str) :
    List ClassInfo :=
  files.foldl (fun acc fp =>
    match parse fp with
    | none => acc
    | some cs => acc ++ cs) []

/-- `file_to_classes_map` (lines 187-189), a dict keyed by the file path. -/
def fileToClasses (parse : Str → Option (List ClassInfo)) (files : List Str) :
    List (Str × List ClassInfo) :=
  files.foldl (fun acc fp =>
    match parse fp with
    | none => acc
    | some cs => (fp, cs) :: acc) []

/-- `class_info_map` (lines 191-193): simple class name → `ClassInfo`, the last
class with a given name winning lookups (dict overwrite, modelled by
prepending with first-match lookup). -/
def classInfoMapOf (allCls : List ClassInfo) : List (Str × ClassInfo) :=
  allCls.foldl (fun m cls => (cls.name, cls) :: m) []

/-- The class-name → file-path view of `class_info_map` consumed by the
call-site resolution (`field_type in self.class_info_map` …
`callee_cls.file_path`, lines 271-274). -/
def classFileMap (cim : List (Str × ClassInfo)) : List (Str × Str) :=
  cim.map (fun p => (p.1, p.2.file_path))

/-- Per-class field-name → base-type map (lines 196-207). -/
def buildFieldMap (cls : ClassInfo) : List (Str × Str) :=
  cls.fields.foldl (fun m f =>
    if f.name ≠ [] ∧ f.type ≠ [] then (f.name, stripGenerics f.type) :: m else m) []

/-- `class_field_map` over all classes (lines 196-207). -/
def classFieldMap (allCls : List ClassInfo) : List (Str × List (Str × Str)) :=
  allCls.foldl (fun m cls => (cls.name, buildFieldMap cls) :: m) []

/-- Per-method variable-name → base-type map from parameters then locals
(lines 228-249); a local shadows a parameter of the same name (dict overwrite). -/
def buildVarMap (m : Method) : List (Str × Str) :=
  let pm := m.parameters.foldl (fun mp p =>
    if p.name ≠ [] ∧ p.type ≠ [] then (p.name, stripGenerics p.type) :: mp else mp) []
  m.local_variables.foldl (fun mp v =>
    if v.name ≠ [] ∧ v.type ≠ [] then (v.name, stripGenerics v.type) :: mp else mp) pm

/-- `method_metadata` accumulation (lines 211-223). -/
def buildMethodMetadata (allCls : List ClassInfo) : List (Str × MethodMeta) :=
  allCls.foldl (fun md cls =>
    cls.methods.foldl (fun md m =>
      (cls.name ++ '.' :: m.name,
        ⟨cls.name, m, cls.file_path, cls.package, m.annotations, classifyLayer cls m⟩)
        :: md) md) []

/-- The `call_relations` accumulation (lines 209-309): for every method of
every class, resolve each normalized call string via `resolveCall`. -/
def collectRelations (allCls : List ClassInfo) (classFiles : List (Str × Str))
    (cfm : List (Str × List (Str × Str))) : List CallRelation :=
  allCls.foldl (fun rels cls =>
    let fm := (cfm.lookup cls.name).getD []
    cls.methods.foldl (fun rels m =>
      let vm := buildVarMap m
      m.method_calls.foldl (fun rels call =>
        let rc := resolveCall classFiles cls.name cls.file_path fm vm call
        rels ++ [⟨cls.name ++ '.' :: m.name, rc.1, cls.file_path, rc.2⟩]) rels) rels) []

/-- Class-level base path (lines 560-573): the first class annotation whose
name contains `RequestMapping` supplies the path (when the regex helper
extracts one). -/
def classLevelPath (pathOf : Str → Option Str) (annFull : Str → Str)
    (anns : List Str) : Str :=
  match anns.find? (fun a => hasSubstr a "RequestMapping".data) with
  | none => []
  | some a => (pathOf (annFull a)).getD []

/-- `CallGraphBuilder._identify_endpoints` (lines 551-579). -/
def identifyEndpoints (verbOf pathOf : Str → Option Str)
    (annFull : Str → Str → Bool → Str → Str) (classes : List ClassInfo) :
    List Endpoint :=
  classes.foldl (fun eps cls =>
    let cp := classLevelPath pathOf (annFull cls.file_path cls.name true) cls.annotations
    cls.methods.foldl (fun eps m =>
      match extractEndpoint verbOf pathOf (annFull cls.file_path m.name false) cls m cp with
      | some ep => eps ++ [ep]
      | none => eps) eps) []

/-- The whole mutable state of a `CallGraphBuilder` instance
(`__init__`, lines 144-157). -/
structure BuilderState where
  call_graph : Option Graph
  method_metadata : List (Str × MethodMeta)
  class_info_map : List (Str × ClassInfo)
  file_to_classes_map : List (Str × List ClassInfo)
  endpoints : List Endpoint
deriving DecidableEq, Repr

/-- The freshly-constructed builder: no graph, empty maps (lines 144-157). -/
def initialBuilderState : BuilderState := ⟨none, [], [], [], []⟩

/-- `CallGraphBuilder.build_call_graph` (lines 159-338).  The body begins by
resetting every state field (lines 169-174) and never reads the previous
state afterwards, so the embedding takes the previous state `_prev` and
ignores it: rebuilding replaces all internal state. -/
def buildCallGraph (verbOf pathOf : Str → Option Str)
    (annFull : Str → Str → Bool → Str → Str)
    (parse : Str → Option (List ClassInfo))
    (_prev : BuilderState) (files : List Str) : BuilderState :=
  let allCls := allClasses parse files
  let cim := classInfoMapOf allCls
  let md := buildMethodMetadata allCls
  let rels := collectRelations allCls (classFileMap cim) (classFieldMap allCls)
  { call_graph := some (buildGraphFromRelations md rels)
    method_metadata := md
    class_info_map := cim
    file_to_classes_map := fileToClasses parse files
    endpoints := identifyEndpoints verbOf pathOf annFull allCls }

/-! ## Graph queries (`build_call_chains` lines 658-744, `_get_layer` 746-760,
`detect_circular_references` 796-827, `get_call_relations` 829-852,
`get_call_tree` 998-1091) -/

/-- `CallChain` dataclass (lines 70-82). -/
structure CallChain where
  chain : List Str
  layers : List Str
  is_circular : Bool
deriving DecidableEq, Repr

/-- `CallGraphBuilder._get_layer` (lines 746-760). -/
def getLayer (st : BuilderState) (sig : Str) : Str :=
  match st.method_metadata.lookup sig with
  | some m => m.layer
  | none =>
    match st.call_graph with
    | some g =>
      match g.nodes.lookup sig with
      | some a => a.layer
      | none => "Unknown".data
    | none => "Unknown".data

/-- The successor loop of the chain DFS (lines 734-736): explore each successor
in edge order, threading the visited-path set and concatenating the emitted
chains in order. -/
def dfsSuccsAux (f : Str → List (List Str) → List CallChain × List (List Str)) :
    List Str → List (List Str) → List CallChain × List (List Str)
  | [], vis => ([], vis)
  | s :: rest, vis =>
    let r1 := f s vis
    let r2 := dfsSuccsAux f rest r1.2
    (r1.1 ++ r2.1, r2.2)

/-- The recursive `dfs` of `build_call_chains` (lines 694-739), with the
mutable `current_path` / `visited_paths` threaded explicitly.  The extra
`fuel` argument only serves Lean's termination checking: every recursive call
decrements `fuel` and increments `depth` together, so starting from
`fuel = maxD + 2` at `depth = 0` the fuel is exhausted only at
`depth = maxD + 2`, where the source's `depth > max_depth` guard returns the
same empty result — the embedding computes exactly what the source does. -/
def dfsNode (g : Graph) (layerOf : Str → Str) (maxD : Nat) :
    Nat → Str → Nat → List Str → List (List Str) → List CallChain × List (List Str)
  | 0, _, _, _, vis => ([], vis)
  | fuel + 1, node, depth, path, vis =>
    if maxD < depth then ([], vis)
    else if node ∈ path then
      ([⟨path ++ [node], (path ++ [node]).map layerOf, true⟩], vis)
    else
      let p := path ++ [node]
      if p ∈ vis then ([], vis)
      else if ¬ (g.hasNode node) ∨ g.succ node = [] then
        ([⟨p, p.map layerOf, false⟩], p :: vis)
      else
        dfsSuccsAux (fun s v => dfsNode g layerOf maxD fuel s (depth + 1) p v)
          (g.succ node) (p :: vis)

/-- `CallGraphBuilder.build_call_chains` (lines 658-744): empty when no graph
was built; otherwise DFS from the given endpoint's signature (or from every
identified endpoint), skipping start nodes absent from the graph. -/
def buildCallChains (st : BuilderState) (endpoint : Option Endpoint) (maxD : Nat) :
    List CallChain :=
  match st.call_graph with
  | none => []
  | some g =>
    let starts : List Str := match endpoint with
      | some ep => [ep.method_signature]
      | none => st.endpoints.map (fun e => e.method_signature)
    starts.foldl (fun acc s =>
      if g.hasNode s then acc ++ (dfsNode g (getLayer st) maxD (maxD + 2) s 0 [] []).1
      else acc) []

/-- A node of the `get_call_tree` result (lines 1024-1075); `class_name` and
`file_path` are present only when the node has a metadata entry. -/
structure CallTreeNode where
  method_signature : Str
  layer : Str
  is_circular : Bool
  children : List CallTreeNode
  class_name : Option Str
  file_path : Option Str

/-- `build_tree_node` (lines 1024-1075), with the shared mutable
`visited_in_path` set passed down as the current path set and the same
fuel-for-depth bookkeeping as `dfsNode`. -/
def buildTreeNode (st : BuilderState) (g : Graph) (maxD : Nat) :
    Nat → Str → Nat → List Str → Option CallTreeNode
  | 0, _, _, _ => none
  | fuel + 1, node, depth, visited =>
    if maxD < depth then none
    else if node ∈ visited then
      some ⟨node, getLayer st node, true, [], none, none⟩
    else
      let children := (g.succ node).filterMap
        (fun s => buildTreeNode st g maxD fuel s (depth + 1) (node :: visited))
      some ⟨node, getLayer st node, false, children,
        (st.method_metadata.lookup node).map (·.class_name),
        (st.method_metadata.lookup node).map (·.file_path)⟩

/-- `CallGraphBuilder.get_call_tree` (lines 998-1091): `none` models the empty
dict returned when no graph was built or the start node is absent; otherwise
the tree paired with the endpoint information attached at the root. -/
def getCallTree (st : BuilderState) (ep : Endpoint) (maxD : Nat) :
    Option (CallTreeNode × Endpoint) :=
  match st.call_graph with
  | none => none
  | some g =>
    if g.hasNode ep.method_signature then
      match buildTreeNode st g maxD (maxD + 2) ep.method_signature 0 [] with
      | some t => some (t, ep)
      | none => none
    else none

/-- The node-name list of the graph. -/
def Graph.nodeKeys (g : Graph) : List Str := g.nodes.map (·.1)

/-- A walk in the graph: a nonempty node sequence following edges, with every
visited node present in the graph ("an entry point reaching A" is a walk from
the entry to `A`). -/
def Graph.isWalk (g : Graph) : List Str → Bool
  | [] => false
  | [n] => g.hasNode n
  | n :: m :: rest => g.hasNode n && g.edges.contains (n, m) && Graph.isWalk g (m :: rest)

/-- Reachability (reflexive-transitive closure of the edge relation) through
intermediate nodes drawn from the given list, Floyd–Warshall style; with the
full node list this is graph reachability, as computed inside networkx's
`strongly_connected_components`. -/
def reachThrough (E : List (Str × Str)) : List Str → Str → Str → Bool
  | [], a, b => a == b || E.contains (a, b)
  | k :: ks, a, b =>
    reachThrough E ks a b || (reachThrough E ks a k && reachThrough E ks k b)

/-- `a` reaches `b` in the graph. -/
def Graph.reaches (g : Graph) (a b : Str) : Bool := reachThrough g.edges g.nodeKeys a b

/-- The strongly connected component of `v`: all nodes mutually reachable
with `v`. -/
def Graph.sccOf (g : Graph) (v : Str) : List Str :=
  g.nodeKeys.filter (fun u => g.reaches v u && g.reaches u v)

/-- The distinct strongly connected components with more than one node —
exactly the components `detect_circular_references` (lines 796-827) reports
on: the source computes `nx.strongly_connected_components`, keeps those with
`len(scc) > 1`, and appends one concrete cycle found inside each such
component (`nx.find_cycle` on the component's subgraph, so the reported cycle
lies within the component).  The external networkx computations are modelled
by the mathematical mutual-reachability components. -/
def Graph.sccsNontrivial (g : Graph) : List (List Str) :=
  ((g.nodeKeys.map g.sccOf).dedup).filter (fun c => 1 < c.length)

/-- `CallGraphBuilder.detect_circular_references` (lines 796-827): empty when
no graph was built, else the nontrivial strongly connected components (each
standing for the concrete cycle recovered inside it). -/
def detectCircularReferences (st : BuilderState) : List (List Str) :=
  match st.call_graph with
  | none => []
  | some g => g.sccsNontrivial

/-- `CallGraphBuilder.get_call_relations` (lines 829-852): empty when no graph
was built, else one `CallRelation` per edge with the metadata-derived files
(default `""`). -/
def getCallRelations (st : BuilderState) : List CallRelation :=
  match st.call_graph with
  | none => []
  | some g =>
    g.edges.map (fun e =>
      ⟨e.1, e.2,
        (match st.method_metadata.lookup e.1 with | some m => m.file_path | none => []),
        (match st.method_metadata.lookup e.2 with | some m => m.file_path | none => [])⟩)

/-- C1: layer classification is the pure function `classifyLayer` of class and
method facts, evaluated annotations first, then class-name patterns, then
interfaces, then package keywords, then field types, then `Unknown`:
(1) a class with annotation list `["Service"]` (and a method without
annotations) whose name matches no layer pattern classifies as `Service`;
(2) a class named `UserRepository` with no annotations classifies as
`Repository`; (3) a class with an `EntityManager`-typed field and no other
matching signal (no annotations, no name-pattern match, no interfaces, no
package-keyword match) classifies as `Repository`; (4) a class matching none of
the rules classifies as `Unknown`. -/
theorem c1_layer_classification :
    (∀ (name pkg : Str) (sup : Option Str) (intfs : List Str) (flds : List FieldRec)
        (ms : List Method) (fp rt mn : Str),
      findLayerByName name = none →
      classifyLayer ⟨name, pkg, sup, intfs, ["Service".data], flds, ms, fp⟩
        ⟨mn, rt, [], [], [], []⟩ = "Service".data)
  ∧ (∀ (pkg : Str) (sup : Option Str) (intfs : List Str) (flds : List FieldRec)
        (ms : List Method) (fp rt mn : Str),
      classifyLayer ⟨"UserRepository".data, pkg, sup, intfs, [], flds, ms, fp⟩
        ⟨mn, rt, [], [], [], []⟩ = "Repository".data)
  ∧ (∀ (name pkg : Str) (sup : Option Str) (ms : List Method) (fp rt mn fname : Str),
      findLayerByName name = none →
      classifyByPackage (lowerStr pkg) = none →
      classifyLayer ⟨name, pkg, sup, [], [], [⟨fname, "EntityManager".data⟩], ms, fp⟩
        ⟨mn, rt, [], [], [], []⟩ = "Repository".data)
  ∧ (∀ (name pkg : Str) (sup : Option Str) (intfs : List Str) (flds : List FieldRec)
        (ms : List Method) (fp rt mn : Str),
      findLayerByName name = none →
      classifyByInterface intfs = none →
      classifyByPackage (lowerStr pkg) = none →
      classifyByFields flds = none →
      classifyLayer ⟨name, pkg, sup, intfs, [], flds, ms, fp⟩
        ⟨mn, rt, [], [], [], []⟩ = "Unknown".data) := by
  refine ⟨fun _ _ _ _ _ _ _ _ _ _ => rfl, fun _ _ _ _ _ _ _ _ => rfl, ?_, ?_⟩
  · intro name pkg sup ms fp rt mn fname hname hpkg
    simp only [classifyLayer]
    rw [hname, hpkg]
    rfl
  · intro name pkg sup intfs flds ms fp rt mn hname hintf hpkg hflds
    simp only [classifyLayer]
    rw [hname, hintf, hpkg, hflds]
    rfl

/-- Witness for C1: the four classification scenarios evaluated at concrete
classes. -/
theorem c1_layer_classification_witness :
    classifyLayer ⟨"Foo".data, [], none, [], ["Service".data], [], [], []⟩
      ⟨"m".data, "void".data, [], [], [], []⟩ = "Service".data
  ∧ classifyLayer ⟨"UserRepository".data, [], none, [], [], [], [], []⟩
      ⟨"m".data, "void".data, [], [], [], []⟩ = "Repository".data
  ∧ classifyLayer ⟨"Foo".data, "x".data, none, [], [],
      [⟨"em".data, "EntityManager".data⟩], [], []⟩
      ⟨"m".data, "void".data, [], [], [], []⟩ = "Repository".data
  ∧ classifyLayer ⟨"Foo".data, "x".data, none, [], [], [], [], []⟩
      ⟨"m".data, "void".data, [], [], [], []⟩ = "Unknown".data :=
  ⟨c1_layer_classification.1 "Foo".data [] none [] [] [] [] "void".data "m".data (by decide),
   c1_layer_classification.2.1 [] none [] [] [] [] "void".data "m".data,
   c1_layer_classification.2.2.1 "Foo".data "x".data none [] [] "void".data "m".data
     "em".data (by decide) (by decide),
   c1_layer_classification.2.2.2 "Foo".data "x".data none [] [] [] [] "void".data "m".data
     (by decide) (by decide) (by decide) (by decide)⟩

/-- Helper: a string starting with `'/'` is that slash followed by its tail. -/
theorem startsWithSlash_eq {mp : Str} (h : startsWithSlash mp = true) :
    mp = '/' :: mp.tail := by
  cases mp with
  | nil => simp [startsWithSlash] at h
  | cons c t =>
    simp only [startsWithSlash, beq_iff_eq] at h
    simp [h]

/-- Helper: a string ending in `'/'` is its `dropLast` followed by that slash. -/
theorem endsWithSlash_eq {cp : Str} (h : endsWithSlash cp = true) :
    cp = cp.dropLast ++ ['/'] := by
  cases hcp : cp.getLast? with
  | none => simp [endsWithSlash, hcp] at h
  | some c =>
    simp only [endsWithSlash, hcp, beq_iff_eq] at h
    subst h
    have hne : cp ≠ [] := by
      intro hnil
      rw [hnil] at hcp
      simp at hcp
    have := List.dropLast_append_getLast hne
    rw [List.getLast?_eq_getLast cp hne] at hcp
    injection hcp with hcp
    rw [hcp] at this
    exact this.symm

/-- C2: for every method for which an HTTP verb is found, the emitted
`Endpoint`'s path is the class base path and the method path combined with
exactly one separating slash — for a method path starting with `'/'`, the
result is the class path (with a trailing slash removed) followed by the method
path, so `"/api" + "/users" = "/api/users"`, `"/api/" + "/users" =
"/api/users"`, and `"" + "/x" = "/x"` — and a method yields an `Endpoint` only
if an HTTP verb was found. -/
theorem c2_endpoint_path_combination :
    (∀ cp mp : Str, startsWithSlash mp = true →
      combinePaths cp mp = (if endsWithSlash cp then cp.dropLast else cp) ++ mp)
  ∧ combinePaths "/api".data "/users".data = "/api/users".data
  ∧ combinePaths "/api/".data "/users".data = "/api/users".data
  ∧ combinePaths [] "/x".data = "/x".data
  ∧ (∀ (verbOf pathOf : Str → Option Str) (annFull : Str → Str) (cls : ClassInfo)
        (m : Method) (cp : Str) (ep : Endpoint),
      extractEndpoint verbOf pathOf annFull cls m cp = some ep →
      ∃ v mp, findVerbAnn verbOf pathOf annFull m.annotations = some (v, mp)
        ∧ ep.path = combinePaths cp mp ∧ ep.http_method = v)
  ∧ (∀ (verbOf pathOf : Str → Option Str) (annFull : Str → Str) (cls : ClassInfo)
        (m : Method) (cp : Str),
      findVerbAnn verbOf pathOf annFull m.annotations = none →
      extractEndpoint verbOf pathOf annFull cls m cp = none) := by
  refine ⟨?_, by decide, by decide, by decide, ?_, ?_⟩
  · intro cp mp h
    have hmp := startsWithSlash_eq h
    by_cases hcp : cp = []
    · subst hcp
      rw [hmp]
      simp [combinePaths, endsWithSlash]
    · by_cases hend : endsWithSlash cp = true
      · have hcp' := endsWithSlash_eq hend
        rw [combinePaths, if_pos ⟨hcp, by rw [hmp]; simp⟩, if_pos ⟨hend, h⟩, hend]
        rw [if_pos rfl]
        conv_lhs => rw [hmp, hcp']
        simp
        exact hmp.symm
      · rw [combinePaths, if_pos ⟨hcp, by rw [hmp]; simp⟩]
        rw [if_neg (by simp [hend]), if_neg (by simp [h]), if_neg hend]
  · intro verbOf pathOf annFull cls m cp ep hep
    unfold extractEndpoint at hep
    cases hfv : findVerbAnn verbOf pathOf annFull m.annotations with
    | none => rw [hfv] at hep; exact absurd hep (by simp)
    | some vp =>
      obtain ⟨v, mp⟩ := vp
      rw [hfv] at hep
      injection hep with hep
      exact ⟨v, mp, rfl, by rw [← hep], by rw [← hep]⟩
  · intro verbOf pathOf annFull cls m cp hfv
    unfold extractEndpoint
    rw [hfv]

/-- Witness for C2: the path-combination rule and the endpoint-emission rule
evaluated at concrete inputs. -/
theorem c2_endpoint_path_combination_witness :
    combinePaths "/api".data "/users".data
      = (if endsWithSlash "/api".data then ("/api".data).dropLast else "/api".data)
          ++ "/users".data
  ∧ (∃ v mp,
      findVerbAnn (fun s => if s = "GetMapping".data then some "GET".data else none)
        (fun _ => some "/users".data) (fun a => a)
        ["GetMapping".data] = some (v, mp)
      ∧ ("/api/users".data : Str) = combinePaths "/api".data mp
      ∧ ("GET".data : Str) = v)
  ∧ extractEndpoint (fun s => if s = "GetMapping".data then some "GET".data else none)
      (fun _ => some "/users".data) (fun a => a)
      ⟨"C".data, [], none, [], [], [], [], []⟩
      ⟨"m".data, "void".data, [], [], [], []⟩ [] = none := by
  refine ⟨c2_endpoint_path_combination.1 "/api".data "/users".data (by decide), ?_, ?_⟩
  · exact c2_endpoint_path_combination.2.2.2.2.1
      (fun s => if s = "GetMapping".data then some "GET".data else none)
      (fun _ => some "/users".data) (fun a => a)
      ⟨"C".data, [], none, [], [], [], [], []⟩
      ⟨"m".data, "void".data, [], [], ["GetMapping".data], []⟩ "/api".data
      ⟨"/api/users".data, "GET".data, "C.m".data, "C".data, "m".data, []⟩ (by decide)
  · exact c2_endpoint_path_combination.2.2.2.2.2
      (fun s => if s = "GetMapping".data then some "GET".data else none)
      (fun _ => some "/users".data) (fun a => a)
      ⟨"C".data, [], none, [], [], [], [], []⟩
      ⟨"m".data, "void".data, [], [], [], []⟩ [] rfl

/-- Helper: splitting a dot-free string yields the one-element list. -/
theorem splitOnDot_dotfree {m : Str} (h : '.' ∉ m) : splitOnDot m = [m] := by
  induction m with
  | nil => rfl
  | cons c t ih =>
    have hc : c ≠ '.' := fun hc => h (hc ▸ List.mem_cons_self _ _)
    have ht : '.' ∉ t := fun hm => h (List.mem_cons_of_mem _ hm)
    simp only [splitOnDot, ih ht]
    rw [if_neg hc]

/-- Helper: splitting `receiver ++ "." ++ rest` with a dot-free receiver peels
off the receiver as the first segment. -/
theorem splitOnDot_append {r m : Str} (h : '.' ∉ r) :
    splitOnDot (r ++ '.' :: m) = r :: splitOnDot m := by
  induction r with
  | nil => simp [splitOnDot]
  | cons c t ih =>
    have hc : c ≠ '.' := fun hc => h (hc ▸ List.mem_cons_self _ _)
    have ht : '.' ∉ t := fun hm => h (List.mem_cons_of_mem _ hm)
    simp only [List.cons_append, splitOnDot, List.append_eq, ih ht]
    rw [if_neg hc]

/-- Helper: a call of the form `receiver.method` (dot-free receiver and method)
splits into exactly those two parts. -/
theorem splitOnDot_pair {r m : Str} (hr : '.' ∉ r) (hm : '.' ∉ m) :
    splitOnDot (r ++ '.' :: m) = [r, m] := by
  rw [splitOnDot_append hr, splitOnDot_dotfree hm]

/-- Helper: `'.' ∈ receiver.method` as a `contains` fact. -/
theorem contains_dot_receiver (r m : Str) : (r ++ '.' :: m).contains '.' = true := by
  simp [List.contains]

/-- C5: resolution of a normalized call-site string of a method of class `C`
(name `clsName`): a `receiver.m` call whose receiver is a field of declared
base type `T` resolves to signature `T.m`, with `T`'s file when `T` is a known
class and still `T.m` (with the caller's file) when it is not; otherwise a
receiver that is a parameter or local variable of type `T` resolves the same
way; otherwise a call with an unrecognized receiver keeps the call string
itself verbatim as the callee signature; and a call with no receiver resolves
to `C.m`. -/
theorem c5_call_resolution :
    (∀ (classFiles : List (Str × Str)) (clsName clsFile : Str)
        (fieldMap varMap : List (Str × Str)) (r m T : Str),
      '.' ∉ r → '.' ∉ m → fieldMap.lookup r = some T →
      (resolveCall classFiles clsName clsFile fieldMap varMap (r ++ '.' :: m)).1
          = T ++ '.' :: m
        ∧ (∀ f, classFiles.lookup T = some f →
            (resolveCall classFiles clsName clsFile fieldMap varMap (r ++ '.' :: m)).2 = f)
        ∧ (classFiles.lookup T = none →
            (resolveCall classFiles clsName clsFile fieldMap varMap (r ++ '.' :: m)).2
              = clsFile))
  ∧ (∀ (classFiles : List (Str × Str)) (clsName clsFile : Str)
        (fieldMap varMap : List (Str × Str)) (r m T : Str),
      '.' ∉ r → '.' ∉ m → fieldMap.lookup r = none → varMap.lookup r = some T →
      (resolveCall classFiles clsName clsFile fieldMap varMap (r ++ '.' :: m)).1
          = T ++ '.' :: m
        ∧ (∀ f, classFiles.lookup T = some f →
            (resolveCall classFiles clsName clsFile fieldMap varMap (r ++ '.' :: m)).2 = f)
        ∧ (classFiles.lookup T = none →
            (resolveCall classFiles clsName clsFile fieldMap varMap (r ++ '.' :: m)).2
              = clsFile))
  ∧ (∀ (classFiles : List (Str × Str)) (clsName clsFile : Str)
        (fieldMap varMap : List (Str × Str)) (r m : Str),
      '.' ∉ r → '.' ∉ m → fieldMap.lookup r = none → varMap.lookup r = none →
      resolveCall classFiles clsName clsFile fieldMap varMap (r ++ '.' :: m)
        = (r ++ '.' :: m, clsFile))
  ∧ (∀ (classFiles : List (Str × Str)) (clsName clsFile : Str)
        (fieldMap varMap : List (Str × Str)) (call : Str),
      '.' ∉ call →
      resolveCall classFiles clsName clsFile fieldMap varMap call
        = (clsName ++ '.' :: call, clsFile)) := by
  refine ⟨?_, ?_, ?_, ?_⟩
  · intro classFiles clsName clsFile fieldMap varMap r m T hr hm hf
    simp only [resolveCall, contains_dot_receiver, if_true, splitOnDot_pair hr hm]
    simp only [List.headD, List.getLastD, List.getLast?, List.length_cons,
      List.length_nil, hf]
    refine ⟨?_, ?_, ?_⟩
    · cases hcf : classFiles.lookup T <;> simp [hcf]
    · intro f hcf; simp [hcf]
    · intro hcf; simp [hcf]
  · intro classFiles clsName clsFile fieldMap varMap r m T hr hm hf hv
    simp only [resolveCall, contains_dot_receiver, if_true, splitOnDot_pair hr hm]
    simp only [List.headD, List.getLastD, List.getLast?, List.length_cons,
      List.length_nil, hf, hv]
    refine ⟨?_, ?_, ?_⟩
    · cases hcf : classFiles.lookup T <;> simp [hcf]
    · intro f hcf; simp [hcf]
    · intro hcf; simp [hcf]
  · intro classFiles clsName clsFile fieldMap varMap r m hr hm hf hv
    simp only [resolveCall, contains_dot_receiver, if_true, splitOnDot_pair hr hm]
    simp [List.headD, List.getLastD, List.getLast?, hf, hv]
  · intro classFiles clsName clsFile fieldMap varMap call hcall
    have hfalse : call.contains '.' = false := by
      simpa [List.contains] using hcall
    rw [resolveCall, if_neg (by simp [List.contains, hcall])]

/-- Witness for C5: the four resolution cases at concrete inputs
(`orderService.find` through a field of type `OrderService`, `x.go` through a
local variable of type `Helper`, `Util.max` with an unrecognized receiver, and
the receiverless call `init`). -/
theorem c5_call_resolution_witness :
    ((resolveCall [("OrderService".data, "OS.java".data)] "OrderController".data
        "OC.java".data [("orderService".data, "OrderService".data)] []
        ("orderService".data ++ '.' :: "find".data)).1
      = "OrderService".data ++ '.' :: "find".data)
  ∧ (resolveCall [] "C".data "C.java".data [] [("x".data, "Helper".data)]
        ("x".data ++ '.' :: "go".data)).1 = "Helper".data ++ '.' :: "go".data
  ∧ resolveCall [] "C".data "C.java".data [] [] ("Util".data ++ '.' :: "max".data)
      = ("Util".data ++ '.' :: "max".data, "C.java".data)
  ∧ resolveCall [] "C".data "C.java".data [] [] "init".data
      = ("C".data ++ '.' :: "init".data, "C.java".data) :=
  ⟨(c5_call_resolution.1 [("OrderService".data, "OS.java".data)] "OrderController".data
      "OC.java".data [("orderService".data, "OrderService".data)] []
      "orderService".data "find".data "OrderService".data
      (by decide) (by decide) (by decide)).1,
   (c5_call_resolution.2.1 [] "C".data "C.java".data [] [("x".data, "Helper".data)]
      "x".data "go".data "Helper".data (by decide) (by decide) (by decide) (by decide)).1,
   c5_call_resolution.2.2.1 [] "C".data "C.java".data [] [] "Util".data "max".data
      (by decide) (by decide) (by decide) (by decide),
   c5_call_resolution.2.2.2 [] "C".data "C.java".data [] [] "init".data (by decide)⟩

/-- Helper: a successful lookup survives appending on the right. -/
theorem lookup_append_isSome {α : Type} {l₁ : List (Str × α)} {k : Str}
    (l₂ : List (Str × α)) (h : (l₁.lookup k).isSome) :
    ((l₁ ++ l₂).lookup k).isSome := by
  induction l₁ with
  | nil => simp [List.lookup] at h
  | cons p t ih =>
    cases p with
    | mk a b =>
      simp only [List.cons_append, List.lookup]
      cases hk : k == a with
      | true => simp
      | false =>
        simp only [List.lookup, hk] at h
        exact ih h

/-- Helper: looking up the key of a just-appended binding succeeds. -/
theorem lookup_append_self_isSome {α : Type} (l : List (Str × α)) (k : Str) (v : α) :
    ((l ++ [(k, v)]).lookup k).isSome := by
  induction l with
  | nil => simp [List.lookup]
  | cons p t ih =>
    cases p with
    | mk a b =>
      simp only [List.cons_append, List.lookup]
      cases hk : k == a with
      | true => simp
      | false => exact ih

/-- Helper: a successful association-list lookup is a membership. -/
theorem mem_of_lookup_eq_some {α : Type} {l : List (Str × α)} {k : Str} {v : α}
    (h : l.lookup k = some v) : (k, v) ∈ l := by
  induction l with
  | nil => simp [List.lookup] at h
  | cons p t ih =>
    cases p with
    | mk a b =>
      simp only [List.lookup] at h
      cases hk : k == a with
      | true =>
        rw [hk] at h
        injection h with h
        have hk' := beq_iff_eq.mp hk
        subst hk'
        rw [← h]
        exact List.mem_cons_self _ _
      | false =>
        rw [hk] at h
        exact List.mem_cons_of_mem _ (ih h)

/-- Helper: `addNodeIfAbsent` preserves successful node lookups. -/
theorem addNode_lookup_mono {g : Graph} {n k : Str} {a : NodeAttrs}
    (h : (g.nodes.lookup k).isSome) :
    (((g.addNodeIfAbsent n a)).nodes.lookup k).isSome := by
  unfold Graph.addNodeIfAbsent
  by_cases hs : (g.nodes.lookup n).isSome
  · rw [if_pos hs]; exact h
  · rw [if_neg hs]; exact lookup_append_isSome _ h

/-- Helper: after `addNodeIfAbsent g n a` the node `n` is present. -/
theorem addNode_lookup_self (g : Graph) (n : Str) (a : NodeAttrs) :
    ((g.addNodeIfAbsent n a).nodes.lookup n).isSome := by
  unfold Graph.addNodeIfAbsent
  by_cases hs : (g.nodes.lookup n).isSome
  · rw [if_pos hs]; exact hs
  · rw [if_neg hs]; exact lookup_append_self_isSome _ _ _

/-- Helper: nodes of `addNodeIfAbsent` are old nodes or the new binding. -/
theorem addNode_mem {g : Graph} {n : Str} {a : NodeAttrs} {p : Str × NodeAttrs}
    (h : p ∈ (g.addNodeIfAbsent n a).nodes) : p ∈ g.nodes ∨ p = (n, a) := by
  unfold Graph.addNodeIfAbsent at h
  by_cases hs : (g.nodes.lookup n).isSome
  · rw [if_pos hs] at h; exact Or.inl h
  · rw [if_neg hs] at h
    rcases List.mem_append.mp h with h' | h'
    · exact Or.inl h'
    · exact Or.inr (List.mem_singleton.mp h')

/-- Helper: `addNodeIfAbsent` leaves the edge list unchanged. -/
theorem addNode_edges (g : Graph) (n : Str) (a : NodeAttrs) :
    (g.addNodeIfAbsent n a).edges = g.edges := by
  unfold Graph.addNodeIfAbsent
  by_cases hs : (g.nodes.lookup n).isSome
  · rw [if_pos hs]
  · rw [if_neg hs]

/-- Helper: `addEdge` leaves the node list unchanged. -/
theorem addEdge_nodes (g : Graph) (u v : Str) : (g.addEdge u v).nodes = g.nodes := by
  unfold Graph.addEdge
  by_cases hs : (u, v) ∈ g.edges
  · rw [if_pos hs]
  · rw [if_neg hs]

/-- Helper: edges of `addEdge` are old edges or the new pair. -/
theorem addEdge_mem {g : Graph} {u v : Str} {e : Str × Str}
    (h : e ∈ (g.addEdge u v).edges) : e ∈ g.edges ∨ e = (u, v) := by
  unfold Graph.addEdge at h
  by_cases hs : (u, v) ∈ g.edges
  · rw [if_pos hs] at h; exact Or.inl h
  · rw [if_neg hs] at h
    rcases List.mem_append.mp h with h' | h'
    · exact Or.inl h'
    · exact Or.inr (List.mem_singleton.mp h')

/-- The graph-population invariant: every stored node attribute is the
metadata-derived one, and both endpoints of every edge are stored nodes.
Preserved by adding one relation. -/
theorem addRelation_invariant {md : List (Str × MethodMeta)} {g : Graph}
    (r : CallRelation)
    (h1 : ∀ p ∈ g.nodes, p.2 = attrsFromMeta md p.1)
    (h2 : ∀ e ∈ g.edges, ((g.nodes.lookup e.1).isSome ∧ (g.nodes.lookup e.2).isSome)) :
    (∀ p ∈ (addRelation md g r).nodes, p.2 = attrsFromMeta md p.1)
  ∧ ∀ e ∈ (addRelation md g r).edges,
      (((addRelation md g r).nodes.lookup e.1).isSome
        ∧ ((addRelation md g r).nodes.lookup e.2).isSome) := by
  unfold addRelation
  constructor
  · intro p hp
    rw [addEdge_nodes] at hp
    rcases addNode_mem hp with hp' | hp'
    · rcases addNode_mem hp' with hp'' | hp''
      · exact h1 p hp''
      · rw [hp'']
    · rw [hp']
  · intro e he
    rw [addEdge_nodes]
    rcases addEdge_mem he with he' | he'
    · rw [addNode_edges, addNode_edges] at he'
      obtain ⟨hl, hr⟩ := h2 e he'
      exact ⟨addNode_lookup_mono (addNode_lookup_mono hl),
        addNode_lookup_mono (addNode_lookup_mono hr)⟩
    · rw [he']
      exact ⟨addNode_lookup_mono (addNode_lookup_self _ _ _),
        addNode_lookup_self _ _ _⟩

/-- The graph-population invariant holds for the whole relation fold. -/
theorem foldl_addRelation_invariant (md : List (Str × MethodMeta))
    (rels : List CallRelation) (g : Graph)
    (h1 : ∀ p ∈ g.nodes, p.2 = attrsFromMeta md p.1)
    (h2 : ∀ e ∈ g.edges, ((g.nodes.lookup e.1).isSome ∧ (g.nodes.lookup e.2).isSome)) :
    (∀ p ∈ (rels.foldl (addRelation md) g).nodes, p.2 = attrsFromMeta md p.1)
  ∧ ∀ e ∈ (rels.foldl (addRelation md) g).edges,
      (((rels.foldl (addRelation md) g).nodes.lookup e.1).isSome
        ∧ ((rels.foldl (addRelation md) g).nodes.lookup e.2).isSome) := by
  induction rels generalizing g with
  | nil => exact ⟨h1, h2⟩
  | cons r t ih =>
    obtain ⟨h1', h2'⟩ := addRelation_invariant r h1 h2
    exact ih (addRelation md g r) h1' h2'

/-- C6: after any build, every node appearing as an endpoint of an edge of the
call graph carries metadata attributes, with `class_name = ""`,
`file_path = ""` and `layer = "Unknown"` as the defaults for a callee that has
no `method_metadata` entry (i.e. could not be resolved to a parsed class); no
edge endpoint lacks these attributes. -/
theorem c6_edge_endpoints_have_metadata (verbOf pathOf : Str → Option Str)
    (annFull : Str → Str → Bool → Str → Str) (parse : Str → Option (List ClassInfo))
    (prev : BuilderState) (files : List Str) (g : Graph)
    (hg : (buildCallGraph verbOf pathOf annFull parse prev files).call_graph = some g)
    (e : Str × Str) (he : e ∈ g.edges) :
    (∃ a, g.nodes.lookup e.1 = some a)
  ∧ ∃ a, g.nodes.lookup e.2 = some a
      ∧ ((buildCallGraph verbOf pathOf annFull parse prev files).method_metadata.lookup
            e.2 = none → a = ⟨[], [], "Unknown".data⟩) := by
  have hmd : (buildCallGraph verbOf pathOf annFull parse prev files).method_metadata
      = buildMethodMetadata (allClasses parse files) := rfl
  have hg' : g = buildGraphFromRelations (buildMethodMetadata (allClasses parse files))
      (collectRelations (allClasses parse files)
        (classFileMap (classInfoMapOf (allClasses parse files)))
        (classFieldMap (allClasses parse files))) := by
    have : (buildCallGraph verbOf pathOf annFull parse prev files).call_graph
        = some (buildGraphFromRelations (buildMethodMetadata (allClasses parse files))
          (collectRelations (allClasses parse files)
            (classFileMap (classInfoMapOf (allClasses parse files)))
            (classFieldMap (allClasses parse files)))) := rfl
    rw [hg] at this
    exact Option.some_injective _ this
  subst hg'
  obtain ⟨h1, h2⟩ := foldl_addRelation_invariant
    (buildMethodMetadata (allClasses parse files)) _ emptyGraph
    (by intro p hp; simp [emptyGraph] at hp) (by intro e he; simp [emptyGraph] at he)
  obtain ⟨hl, hr⟩ := h2 e he
  obtain ⟨a1, ha1⟩ := Option.isSome_iff_exists.mp hl
  obtain ⟨a2, ha2⟩ := Option.isSome_iff_exists.mp hr
  refine ⟨⟨a1, ha1⟩, ⟨a2, ha2, ?_⟩⟩
  intro hnone
  have hmem := mem_of_lookup_eq_some ha2
  have := h1 _ hmem
  rw [hmd] at hnone
  simp only [attrsFromMeta, hnone] at this
  exact this

/-- Witness input for C6: a single class `A` whose method `m` calls `b.go`
through a field `b` of the unknown type `B`. -/
def c6ClassA : ClassInfo :=
  ⟨"A".data, [], none, [], [], [⟨"b".data, "B".data⟩],
    [⟨"m".data, "void".data, [], [], [], ["b.go".data]⟩], "A.java".data⟩

/-- Witness builder state for C6. -/
def c6State : BuilderState :=
  buildCallGraph (fun _ => none) (fun _ => none) (fun _ _ _ a => a)
    (fun fp => if fp = "A.java".data then some [c6ClassA] else none)
    initialBuilderState ["A.java".data]

/-- Witness graph for C6. -/
def c6Graph : Graph := c6State.call_graph.getD emptyGraph

/-- Witness for C6: in the concrete build, the unresolved callee `B.go` of the
edge `A.m -> B.go` carries the default metadata attributes. -/
theorem c6_edge_endpoints_have_metadata_witness :
    (∃ a, c6Graph.nodes.lookup ("A".data ++ '.' :: "m".data) = some a)
  ∧ ∃ a, c6Graph.nodes.lookup ("B".data ++ '.' :: "go".data) = some a
      ∧ (c6State.method_metadata.lookup ("B".data ++ '.' :: "go".data) = none →
          a = ⟨[], [], "Unknown".data⟩) :=
  c6_edge_endpoints_have_metadata (fun _ => none) (fun _ => none) (fun _ _ _ a => a)
    (fun fp => if fp = "A.java".data then some [c6ClassA] else none)
    initialBuilderState ["A.java".data] c6Graph rfl
    ("A".data ++ '.' :: "m".data, "B".data ++ '.' :: "go".data) (by decide)

/-- C8: `build_call_graph` is a pure function of the input file set — the
result does not depend on the previous builder state (all internal state is
replaced, not accumulated), and building a second time on the same file set
yields the identical builder state, hence identical node sets, edge sets and
per-node layer assignments. -/
theorem c8_rebuild_replaces_state :
    (∀ (verbOf pathOf : Str → Option Str) (annFull : Str → Str → Bool → Str → Str)
        (parse : Str → Option (List ClassInfo)) (prev prev' : BuilderState)
        (files : List Str),
      buildCallGraph verbOf pathOf annFull parse prev files
        = buildCallGraph verbOf pathOf annFull parse prev' files)
  ∧ (∀ (verbOf pathOf : Str → Option Str) (annFull : Str → Str → Bool → Str → Str)
        (parse : Str → Option (List ClassInfo)) (prev : BuilderState) (files : List Str),
      buildCallGraph verbOf pathOf annFull parse
          (buildCallGraph verbOf pathOf annFull parse prev files) files
        = buildCallGraph verbOf pathOf annFull parse prev files) :=
  ⟨fun _ _ _ _ _ _ _ => rfl, fun _ _ _ _ _ _ => rfl⟩

/-- C7: every graph query invoked while the graph is absent (before any
successful build) — `build_call_chains`, `get_call_tree`,
`detect_circular_references`, `get_call_relations` — returns an empty or
neutral result (empty list / empty dict, modelled as `none`) instead of
raising. -/
theorem c7_queries_before_build_empty (st : BuilderState)
    (h : st.call_graph = none) (endpoint : Option Endpoint) (ep : Endpoint)
    (maxD maxD' : Nat) :
    buildCallChains st endpoint maxD = []
  ∧ getCallTree st ep maxD' = none
  ∧ detectCircularReferences st = []
  ∧ getCallRelations st = [] := by
  unfold buildCallChains getCallTree detectCircularReferences getCallRelations
  rw [h]
  exact ⟨rfl, rfl, rfl, rfl⟩

/-- Witness for C7: the queries on a freshly constructed builder. -/
theorem c7_queries_before_build_empty_witness :
    buildCallChains initialBuilderState none 10 = []
  ∧ getCallTree initialBuilderState ⟨[], [], [], [], [], []⟩ 10 = none
  ∧ detectCircularReferences initialBuilderState = []
  ∧ getCallRelations initialBuilderState = [] :=
  c7_queries_before_build_empty initialBuilderState rfl none ⟨[], [], [], [], [], []⟩ 10 10

/-- Helper: reachability is reflexive. -/
theorem reachThrough_refl (E : List (Str × Str)) (ks : List Str) (a : Str) :
    reachThrough E ks a a = true := by
  induction ks with
  | nil => simp [reachThrough]
  | cons k t ih => simp [reachThrough, ih]

/-- Helper: an edge yields reachability. -/
theorem reachThrough_of_edge (E : List (Str × Str)) (ks : List Str) {a b : Str}
    (h : (a, b) ∈ E) : reachThrough E ks a b = true := by
  induction ks with
  | nil =>
    simp only [reachThrough, Bool.or_eq_true]
    right
    simpa [List.contains] using h
  | cons k t ih => simp [reachThrough, ih]

/-- Helper: dropping the head intermediate when it is the target. -/
theorem reachThrough_down_right {E : List (Str × Str)} {t : List Str} {k x : Str}
    (h : reachThrough E (k :: t) x k = true) : reachThrough E t x k = true := by
  simp only [reachThrough, Bool.or_eq_true, Bool.and_eq_true] at h
  rcases h with h | ⟨h, _⟩ <;> exact h

/-- Helper: dropping the head intermediate when it is the source. -/
theorem reachThrough_down_left {E : List (Str × Str)} {t : List Str} {k y : Str}
    (h : reachThrough E (k :: t) k y = true) : reachThrough E t k y = true := by
  simp only [reachThrough, Bool.or_eq_true, Bool.and_eq_true] at h
  rcases h with h | ⟨_, h⟩ <;> exact h

/-- Helper: reachability is transitive through a midpoint in the intermediate
list (the Floyd-Warshall invariant). -/
theorem reachThrough_trans {E : List (Str × Str)} {ks : List Str} {a b c : Str}
    (hb : b ∈ ks) (h1 : reachThrough E ks a b = true)
    (h2 : reachThrough E ks b c = true) : reachThrough E ks a c = true := by
  induction ks generalizing a c with
  | nil => simp at hb
  | cons k t ih =>
    rcases List.mem_cons.mp hb with hbk | hbt
    · subst hbk
      have h1' := reachThrough_down_right h1
      have h2' := reachThrough_down_left h2
      simp only [reachThrough, Bool.or_eq_true, Bool.and_eq_true]
      exact Or.inr ⟨h1', h2'⟩
    · simp only [reachThrough, Bool.or_eq_true, Bool.and_eq_true] at h1 h2 ⊢
      rcases h1 with h1 | ⟨h1a, h1b⟩
      · rcases h2 with h2 | ⟨h2a, h2b⟩
        · exact Or.inl (ih hbt h1 h2)
        · exact Or.inr ⟨ih hbt h1 h2a, h2b⟩
      · rcases h2 with h2 | ⟨h2a, h2b⟩
        · exact Or.inr ⟨h1a, ih hbt h1b h2⟩
        · exact Or.inr ⟨h1a, h2b⟩

/-- Helper: a list with two distinct members has length at least two. -/
theorem two_mem_one_lt_length {l : List Str} {a b : Str} (ha : a ∈ l) (hb : b ∈ l)
    (hne : a ≠ b) : 1 < l.length := by
  cases l with
  | nil => simp at ha
  | cons x t =>
    cases t with
    | nil =>
      rcases List.mem_singleton.mp ha with rfl
      rcases List.mem_singleton.mp hb with rfl
      exact absurd rfl hne
    | cons y t' => simp

/-- Helper: a duplicate-free list of length over one containing `a` also
contains some other element. -/
theorem nodup_exists_other {l : List Str} (hnd : l.Nodup) {a : Str} (ha : a ∈ l)
    (hlen : 1 < l.length) : ∃ b ∈ l, b ≠ a := by
  cases l with
  | nil => simp at ha
  | cons x t =>
    cases t with
    | nil => simp at hlen
    | cons y t' =>
      by_cases hax : a = x
      · subst hax
        refine ⟨y, List.mem_cons_of_mem _ (List.mem_cons_self _ _), ?_⟩
        intro hya
        have := (List.nodup_cons.mp hnd).1
        exact this (hya ▸ List.mem_cons_self _ _)
      · exact ⟨x, List.mem_cons_self _ _, fun hxa => hax (hxa ▸ rfl)⟩

/-- C10: in a built graph where node `A` has a self-loop but belongs to no
strongly connected component with more than one node (no other node is
mutually reachable with `A`), `detect_circular_references` reports no cycle
through `A`: single-node components are never reported, so a method directly
calling itself is not detected as a circular reference. -/
theorem c10_self_loop_not_reported (st : BuilderState) (g : Graph) (A : Str)
    (hg : st.call_graph = some g) (hnd : g.nodeKeys.Nodup)
    (_hA : A ∈ g.nodeKeys) (_hloop : (A, A) ∈ g.edges)
    (hsingle : ∀ u ∈ g.nodeKeys, g.reaches A u = true → g.reaches u A = true → u = A) :
    A ∉ (detectCircularReferences st).flatten := by
  intro hmem
  rw [List.mem_flatten] at hmem
  obtain ⟨c, hc, hAc⟩ := hmem
  unfold detectCircularReferences at hc
  rw [hg] at hc
  unfold Graph.sccsNontrivial at hc
  obtain ⟨hcmem, hclen⟩ := List.mem_filter.mp hc
  obtain ⟨v, hv, hcv⟩ := List.mem_map.mp (List.mem_dedup.mp hcmem)
  subst hcv
  have hclen' : 1 < (g.sccOf v).length := by simpa using hclen
  have hAfacts := List.mem_filter.mp hAc
  have hvA : g.reaches v A = true ∧ g.reaches A v = true := by
    have := hAfacts.2
    simp only [Bool.and_eq_true] at this
    exact this
  have hcnd : (g.sccOf v).Nodup := List.Nodup.filter _ hnd
  obtain ⟨u, hu, hune⟩ := nodup_exists_other hcnd hAc hclen'
  have hufacts := List.mem_filter.mp hu
  have hvu : g.reaches v u = true ∧ g.reaches u v = true := by
    have := hufacts.2
    simp only [Bool.and_eq_true] at this
    exact this
  have hvkeys : v ∈ g.nodeKeys := hv
  have hAu : g.reaches A u = true :=
    reachThrough_trans hvkeys hvA.2 hvu.1
  have huA : g.reaches u A = true :=
    reachThrough_trans hvkeys hvu.2 hvA.1
  exact hune (hsingle u hufacts.1 hAu huA)

/-- Witness graph for C10: `A` with a self-loop plus an unrelated node `C`. -/
def c10Graph : Graph :=
  ⟨[("A".data, ⟨[], [], "Unknown".data⟩), ("C".data, ⟨[], [], "Unknown".data⟩)],
   [("A".data, "A".data)]⟩

/-- Witness builder state for C10. -/
def c10State : BuilderState := ⟨some c10Graph, [], [], [], []⟩

/-- Witness for C10: the self-loop on `A` is not reported. -/
theorem c10_self_loop_not_reported_witness :
    "A".data ∉ (detectCircularReferences c10State).flatten :=
  c10_self_loop_not_reported c10State c10Graph "A".data rfl (by decide) (by decide)
    (by decide) (by decide)

/-- Helper: two prefixes of the same list with equal lengths are equal. -/
theorem prefix_eq_of_length {l₁ l₂ t : List Str} (h1 : l₁ <+: t) (h2 : l₂ <+: t)
    (hlen : l₁.length = l₂.length) : l₁ = l₂ := by
  rw [List.prefix_iff_eq_take.mp h1, List.prefix_iff_eq_take.mp h2, hlen]

/-- Helper: `contains` on an edge list is membership. -/
theorem contains_pair_iff {E : List (Str × Str)} {p : Str × Str} :
    E.contains p = true ↔ p ∈ E := by
  simp [List.contains]

/-- Helper: an edge target is among the source's successors. -/
theorem mem_succ_of_edge {g : Graph} {a b : Str} (h : (a, b) ∈ g.edges) :
    b ∈ g.succ a := by
  unfold Graph.succ
  exact List.mem_map.mpr ⟨(a, b), List.mem_filter.mpr ⟨h, by simp⟩, rfl⟩

/-- Helper: a walk decomposes into its first edge and the rest. -/
theorem isWalk_cons_cons {g : Graph} {n m : Str} {rest : List Str}
    (h : g.isWalk (n :: m :: rest) = true) :
    g.hasNode n = true ∧ (n, m) ∈ g.edges ∧ g.isWalk (m :: rest) = true := by
  simp only [Graph.isWalk, Bool.and_eq_true] at h
  exact ⟨h.1.1, contains_pair_iff.mp h.1.2, h.2⟩

/-- Helper: the successor fold of the chain DFS only records visited path
tuples extending the current path by one explored successor. -/
theorem dfsSuccsAux_vis_extends
    {f : Str → List (List Str) → List CallChain × List (List Str)} {p : List Str}
    (hf : ∀ s vis t, t ∈ (f s vis).2 → t ∈ vis ∨ (p ++ [s]) <+: t) :
    ∀ (ss : List Str) (vis : List (List Str)) (t : List Str),
      t ∈ (dfsSuccsAux f ss vis).2 → t ∈ vis ∨ ∃ s ∈ ss, (p ++ [s]) <+: t := by
  intro ss
  induction ss with
  | nil =>
    intro vis t ht
    simp only [dfsSuccsAux] at ht
    exact Or.inl ht
  | cons s rest ih =>
    intro vis t ht
    simp only [dfsSuccsAux] at ht
    rcases ih _ t ht with h | ⟨s', hs', hp⟩
    · rcases hf s vis t h with h' | hp
      · exact Or.inl h'
      · exact Or.inr ⟨s, List.mem_cons_self _ _, hp⟩
    · exact Or.inr ⟨s', List.mem_cons_of_mem _ hs', hp⟩

/-- Helper: the chain DFS only records visited path tuples that extend its
entry path. -/
theorem dfsNode_vis_extends (g : Graph) (layerOf : Str → Str) (maxD : Nat) :
    ∀ (fuel : Nat) (node : Str) (depth : Nat) (path : List Str)
      (vis : List (List Str)) (t : List Str),
      t ∈ (dfsNode g layerOf maxD fuel node depth path vis).2 →
      t ∈ vis ∨ (path ++ [node]) <+: t := by
  intro fuel
  induction fuel with
  | zero =>
    intro node depth path vis t ht
    simp only [dfsNode] at ht
    exact Or.inl ht
  | succ fuel ih =>
    intro node depth path vis t ht
    simp only [dfsNode] at ht
    by_cases h1 : maxD < depth
    · rw [if_pos h1] at ht; exact Or.inl ht
    · rw [if_neg h1] at ht
      by_cases h2 : node ∈ path
      · rw [if_pos h2] at ht; exact Or.inl ht
      · rw [if_neg h2] at ht
        by_cases h3 : path ++ [node] ∈ vis
        · rw [if_pos h3] at ht; exact Or.inl ht
        · rw [if_neg h3] at ht
          by_cases h4 : ¬ (g.hasNode node = true) ∨ g.succ node = []
          · rw [if_pos h4] at ht
            rcases List.mem_cons.mp ht with rfl | h
            · exact Or.inr (List.prefix_refl _)
            · exact Or.inl h
          · rw [if_neg h4] at ht
            have := dfsSuccsAux_vis_extends
              (f := fun s v => dfsNode g layerOf maxD fuel s (depth + 1) (path ++ [node]) v)
              (p := path ++ [node])
              (fun s v t' ht' => ih s (depth + 1) (path ++ [node]) v t' ht')
              (g.succ node) ((path ++ [node]) :: vis) t ht
            rcases this with h | ⟨s, _, hp⟩
            · rcases List.mem_cons.mp h with rfl | h'
              · exact Or.inr (List.prefix_refl _)
              · exact Or.inl h'
            · exact Or.inr (List.IsPrefix.trans (List.prefix_append _ _) hp)

/-- Helper: if exploring the distinguished successor `m` from the current path
always emits a circular chain (whatever the visited set, as long as no visited
tuple blocks it), then the successor fold emits a circular chain. -/
theorem dfsSuccsAux_emits_circular
    {f : Str → List (List Str) → List CallChain × List (List Str)} {path : List Str}
    {m : Str}
    (hf : ∀ s vis t, t ∈ (f s vis).2 → t ∈ vis ∨ (path ++ [s]) <+: t)
    (hm : ∀ vis, (∀ t ∈ vis, ¬ (path ++ [m]) <+: t) →
      ∃ ch ∈ (f m vis).1, ch.is_circular = true) :
    ∀ (ss : List Str) (vis : List (List Str)), m ∈ ss →
      (∀ t ∈ vis, ¬ (path ++ [m]) <+: t) →
      ∃ ch ∈ (dfsSuccsAux f ss vis).1, ch.is_circular = true := by
  intro ss
  induction ss with
  | nil => intro vis hmem _; simp at hmem
  | cons s rest ih =>
    intro vis hmem hvis
    simp only [dfsSuccsAux]
    by_cases hsm : s = m
    · subst hsm
      obtain ⟨ch, hch, hcirc⟩ := hm vis hvis
      exact ⟨ch, List.mem_append.mpr (Or.inl hch), hcirc⟩
    · have hmem' : m ∈ rest := by
        rcases List.mem_cons.mp hmem with h | h
        · exact absurd h.symm hsm
        · exact h
      have hvis' : ∀ t ∈ (f s vis).2, ¬ (path ++ [m]) <+: t := by
        intro t ht hpre
        rcases hf s vis t ht with h | hp
        · exact hvis t h hpre
        · have heq : path ++ [s] = path ++ [m] :=
            prefix_eq_of_length hp hpre (by simp)
          have := List.append_cancel_left heq
          simp only [List.cons.injEq, and_true] at this
          exact hsm this
      obtain ⟨ch, hch, hcirc⟩ := ih (f s vis).2 hmem' hvis'
      exact ⟨ch, List.mem_append.mpr (Or.inr hch), hcirc⟩

/-- The central chain-DFS lemma: following a walk that ends at `A`, where
`A -> B -> A` is a cycle of the graph, the DFS emits a chain flagged
`is_circular` — provided the walk plus the two cycle steps fit under the depth
bound and no already-visited path tuple blocks the branch.  `fuel` and `depth`
satisfy the `buildCallChains` invariant `maxD + 2 ≤ fuel + depth`. -/
theorem dfsNode_follows_walk_emits_circular (g : Graph) (layerOf : Str → Str)
    (maxD : Nat) {A B : Str} (hAB : (A, B) ∈ g.edges) (hBA : (B, A) ∈ g.edges)
    (hA : g.hasNode A = true) (hB : g.hasNode B = true) :
    ∀ (tail : List Str) (node : Str) (fuel depth : Nat) (path : List Str)
      (vis : List (List Str)),
      maxD + 2 ≤ fuel + depth →
      depth + tail.length + 2 ≤ maxD →
      g.isWalk (node :: tail) = true →
      (node :: tail).getLast? = some A →
      (∀ t ∈ vis, ¬ (path ++ [node]) <+: t) →
      ∃ ch ∈ (dfsNode g layerOf maxD fuel node depth path vis).1,
        ch.is_circular = true := by
  intro tail
  induction tail with
  | nil =>
    intro node fuel depth path vis hfuel hdepth hwalk hlast hvis
    have hnode : node = A := by
      simp only [List.getLast?_singleton, Option.some.injEq] at hlast
      exact hlast
    have hnode' : A = node := hnode.symm
    subst hnode'
    simp only [List.length_nil] at hdepth
    obtain ⟨f1, rfl⟩ : ∃ f', fuel = f' + 1 := ⟨fuel - 1, by omega⟩
    simp only [dfsNode]
    rw [if_neg (show ¬ maxD < depth by omega)]
    by_cases hmem : A ∈ path
    · rw [if_pos hmem]
      exact ⟨_, List.mem_singleton_self _, rfl⟩
    · rw [if_neg hmem]
      rw [if_neg (show ¬ path ++ [A] ∈ vis from
        fun h => hvis _ h (List.prefix_refl _))]
      have hsuccB : B ∈ g.succ A := mem_succ_of_edge hAB
      rw [if_neg (show ¬ (¬ (g.hasNode A = true) ∨ g.succ A = []) by
        push_neg
        exact ⟨hA, fun h => by rw [h] at hsuccB; simp at hsuccB⟩)]
      refine dfsSuccsAux_emits_circular
        (fun s v t ht => dfsNode_vis_extends g layerOf maxD f1 s (depth + 1)
          (path ++ [A]) v t ht)
        ?_ (g.succ A) ((path ++ [A]) :: vis) hsuccB ?_
      · -- exploring B from path ++ [A] emits a circular chain
        intro vis' hvis'
        obtain ⟨f2, rfl⟩ : ∃ f', f1 = f' + 1 := ⟨f1 - 1, by omega⟩
        simp only [dfsNode]
        rw [if_neg (show ¬ maxD < depth + 1 by omega)]
        by_cases hmB : B ∈ path ++ [A]
        · rw [if_pos hmB]
          exact ⟨_, List.mem_singleton_self _, rfl⟩
        · rw [if_neg hmB]
          rw [if_neg (show ¬ path ++ [A] ++ [B] ∈ vis' from
            fun h => hvis' _ h (List.prefix_refl _))]
          have hsuccA : A ∈ g.succ B := mem_succ_of_edge hBA
          rw [if_neg (show ¬ (¬ (g.hasNode B = true) ∨ g.succ B = []) by
            push_neg
            exact ⟨hB, fun h => by rw [h] at hsuccA; simp at hsuccA⟩)]
          refine dfsSuccsAux_emits_circular
            (fun s v t ht => dfsNode_vis_extends g layerOf maxD f2 s (depth + 1 + 1)
              (path ++ [A] ++ [B]) v t ht)
            ?_ (g.succ B) ((path ++ [A] ++ [B]) :: vis') hsuccA ?_
          · -- exploring the repeated A: it is already on the active path
            intro vis'' _
            obtain ⟨f3, rfl⟩ : ∃ f', f2 = f' + 1 := ⟨f2 - 1, by omega⟩
            simp only [dfsNode]
            rw [if_neg (show ¬ maxD < depth + 1 + 1 by omega)]
            rw [if_pos (show A ∈ path ++ [A] ++ [B] by simp)]
            exact ⟨_, List.mem_singleton_self _, rfl⟩
          · intro t ht hpre
            rcases List.mem_cons.mp ht with rfl | ht'
            · have := hpre.length_le
              simp at this
            · exact hvis' t ht' (List.IsPrefix.trans (List.prefix_append _ _) hpre)
      · intro t ht hpre
        rcases List.mem_cons.mp ht with rfl | ht'
        · have := hpre.length_le
          simp at this
        · exact hvis t ht' (List.IsPrefix.trans (List.prefix_append _ _) hpre)
  | cons m rest ih =>
    intro node fuel depth path vis hfuel hdepth hwalk hlast hvis
    simp only [List.length_cons] at hdepth
    obtain ⟨f1, rfl⟩ : ∃ f', fuel = f' + 1 := ⟨fuel - 1, by omega⟩
    simp only [dfsNode]
    rw [if_neg (show ¬ maxD < depth by omega)]
    by_cases hmem : node ∈ path
    · rw [if_pos hmem]
      exact ⟨_, List.mem_singleton_self _, rfl⟩
    · rw [if_neg hmem]
      rw [if_neg (show ¬ path ++ [node] ∈ vis from
        fun h => hvis _ h (List.prefix_refl _))]
      obtain ⟨hnode, hedge, hwalk'⟩ := isWalk_cons_cons hwalk
      have hsuccm : m ∈ g.succ node := mem_succ_of_edge hedge
      rw [if_neg (show ¬ (¬ (g.hasNode node = true) ∨ g.succ node = []) by
        push_neg
        exact ⟨hnode, fun h => by rw [h] at hsuccm; simp at hsuccm⟩)]
      refine dfsSuccsAux_emits_circular
        (fun s v t ht => dfsNode_vis_extends g layerOf maxD f1 s (depth + 1)
          (path ++ [node]) v t ht)
        ?_ (g.succ node) ((path ++ [node]) :: vis) hsuccm ?_
      · intro vis' hvis'
        refine ih m f1 (depth + 1) (path ++ [node]) vis' (by omega) (by omega)
          hwalk' ?_ hvis'
        rw [← hlast]
        exact List.getLast?_cons_cons.symm
      · intro t ht hpre
        rcases List.mem_cons.mp ht with rfl | ht'
        · have := hpre.length_le
          simp at this
        · exact hvis t ht' (List.IsPrefix.trans (List.prefix_append _ _) hpre)

/-- C4 (amended): for any built graph with a cycle `A -> B -> A` (`A ≠ B`),
`detect_circular_references` reports a strongly connected component containing
both `A` and `B`; and `build_call_chains` started from an entry point reaching
`A` emits a chain with `is_circular = true` (the active path plus the repeated
node) and terminates — provided the walk from the entry to `A` plus the two
cycle steps fits within the depth bound (`walk length + 2 ≤ max_depth`).
Termination holds by construction: the embedded DFS is a total function,
mirroring the source's `depth > max_depth` guard. -/
theorem c4_cycle_reported_and_chain_circular :
    (∀ (st : BuilderState) (g : Graph) (A B : Str),
      st.call_graph = some g → A ∈ g.nodeKeys → B ∈ g.nodeKeys → A ≠ B →
      (A, B) ∈ g.edges → (B, A) ∈ g.edges →
      ∃ c ∈ detectCircularReferences st, A ∈ c ∧ B ∈ c)
  ∧ (∀ (st : BuilderState) (g : Graph) (ep : Endpoint) (maxD : Nat)
        (walk : List Str) (A B : Str),
      st.call_graph = some g →
      g.isWalk (ep.method_signature :: walk) = true →
      (ep.method_signature :: walk).getLast? = some A →
      (A, B) ∈ g.edges → (B, A) ∈ g.edges →
      g.hasNode A = true → g.hasNode B = true →
      walk.length + 2 ≤ maxD →
      ∃ ch ∈ buildCallChains st (some ep) maxD, ch.is_circular = true) := by
  constructor
  · intro st g A B hg hA hB hne hAB hBA
    have hAmem : A ∈ g.sccOf A := by
      apply List.mem_filter.mpr
      refine ⟨hA, ?_⟩
      simp only [Graph.reaches, Bool.and_eq_true]
      exact ⟨reachThrough_refl _ _ _, reachThrough_refl _ _ _⟩
    have hBmem : B ∈ g.sccOf A := by
      apply List.mem_filter.mpr
      refine ⟨hB, ?_⟩
      simp only [Graph.reaches, Bool.and_eq_true]
      exact ⟨reachThrough_of_edge _ _ hAB, reachThrough_of_edge _ _ hBA⟩
    refine ⟨g.sccOf A, ?_, hAmem, hBmem⟩
    unfold detectCircularReferences
    rw [hg]
    apply List.mem_filter.mpr
    refine ⟨List.mem_dedup.mpr (List.mem_map.mpr ⟨A, hA, rfl⟩), ?_⟩
    have := two_mem_one_lt_length hAmem hBmem hne
    simpa using this
  · intro st g ep maxD walk A B hg hwalk hlast hAB hBA hA hB hlen
    unfold buildCallChains
    rw [hg]
    have hstart : g.hasNode ep.method_signature = true := by
      cases walk with
      | nil => simpa [Graph.isWalk] using hwalk
      | cons m rest => exact (isWalk_cons_cons hwalk).1
    simp only [List.foldl]
    rw [if_pos hstart]
    simp only [List.nil_append]
    exact dfsNode_follows_walk_emits_circular g (getLayer st) maxD hAB hBA hA hB walk
      ep.method_signature (maxD + 2) 0 [] [] (by omega) (by omega) hwalk hlast
      (by intro t ht; simp at ht)

/-- One chain class for the C4 counterexample: its single method `m` calls
`x.m` through the field `x` of the given next type. -/
def cexClass (name next : Str) : ClassInfo :=
  ⟨name, [], none, [], [], [⟨"x".data, next⟩],
    [⟨"m".data, "void".data, [], [], [], ["x.m".data]⟩], name ++ ".java".data⟩

/-- The C4 counterexample classes: a chain `C0 -> C1 -> ... -> C10` followed by
the two-node cycle `C10 -> B -> C10`. -/
def cexClasses : List ClassInfo :=
  [cexClass "C0".data "C1".data, cexClass "C1".data "C2".data,
   cexClass "C2".data "C3".data, cexClass "C3".data "C4".data,
   cexClass "C4".data "C5".data, cexClass "C5".data "C6".data,
   cexClass "C6".data "C7".data, cexClass "C7".data "C8".data,
   cexClass "C8".data "C9".data, cexClass "C9".data "C10".data,
   cexClass "C10".data "B".data, cexClass "B".data "C10".data]

/-- The C4 counterexample builder state, obtained from an actual build. -/
def cexState : BuilderState :=
  buildCallGraph (fun _ => none) (fun _ => none) (fun _ _ _ a => a)
    (fun fp => if fp = "all.java".data then some cexClasses else none)
    initialBuilderState ["all.java".data]

/-- The C4 counterexample built graph. -/
def cexGraph : Graph := cexState.call_graph.getD emptyGraph

/-- The C4 counterexample entry point `C0.m`. -/
def cexEndpoint : Endpoint :=
  ⟨[], "GET".data, "C0.m".data, "C0".data, "m".data, []⟩

set_option maxRecDepth 4000 in
/-- Counterexample for C4 as stated: in a built graph containing the cycle
`C10.m -> B.m -> C10.m`, the entry point `C0.m` reaches `C10.m` (by the listed
walk), yet `build_call_chains` at its default depth bound `max_depth = 10`
emits no chain at all, in particular none with `is_circular = true`: the cycle
lies just beyond the depth bound, so the branch is truncated without emitting. -/
theorem c4_counterexample :
    ("C10.m".data, "B.m".data) ∈ cexGraph.edges
  ∧ ("B.m".data, "C10.m".data) ∈ cexGraph.edges
  ∧ cexGraph.isWalk ["C0.m".data, "C1.m".data, "C2.m".data, "C3.m".data,
      "C4.m".data, "C5.m".data, "C6.m".data, "C7.m".data, "C8.m".data,
      "C9.m".data, "C10.m".data] = true
  ∧ (buildCallChains cexState (some cexEndpoint) 10).filter
      (fun ch => ch.is_circular) = [] := by
  decide

/-- Witness graph for the amended C4: entry `E` one step away from the cycle
`A -> B -> A`. -/
def c4wGraph : Graph :=
  ⟨[("E".data, ⟨[], [], "Unknown".data⟩), ("A".data, ⟨[], [], "Unknown".data⟩),
    ("B".data, ⟨[], [], "Unknown".data⟩)],
   [("E".data, "A".data), ("A".data, "B".data), ("B".data, "A".data)]⟩

/-- Witness builder state for the amended C4. -/
def c4wState : BuilderState := ⟨some c4wGraph, [], [], [], []⟩

/-- Witness entry point for the amended C4. -/
def c4wEndpoint : Endpoint := ⟨[], "GET".data, "E".data, "E".data, [], []⟩

/-- Witness for the amended C4: on the concrete graph the component `{A, B}`
is reported and a circular chain is emitted from the entry. -/
theorem c4_cycle_reported_and_chain_circular_witness :
    (∃ c ∈ detectCircularReferences c4wState, "A".data ∈ c ∧ "B".data ∈ c)
  ∧ ∃ ch ∈ buildCallChains c4wState (some c4wEndpoint) 10, ch.is_circular = true :=
  ⟨c4_cycle_reported_and_chain_circular.1 c4wState c4wGraph "A".data "B".data rfl
      (by decide) (by decide) (by decide) (by decide) (by decide),
   c4_cycle_reported_and_chain_circular.2 c4wState c4wGraph c4wEndpoint 10
      ["A".data] "A".data "B".data rfl (by decide) (by decide) (by decide)
      (by decide) (by decide) (by decide) (by decide)⟩

/-! ## DB access correlation (`db_access_analyzer.py`) -/

/-- One external SQL query record (namespace, query id, SQL text, declared
result type), as produced by the external mapper parser. -/
structure SqlQueryInfo where
  nspace : Str
  id : Str
  sql : Str
  result_type : Option Str
deriving DecidableEq, Repr

/-- The external SQL-dialect strategy (`sql_parsing_strategy.py`, an external
collaborator per the spec): the table names referenced by a query, and the
column names referenced for a given table. -/
structure SqlStrategy where
  extract_table_names : Str → List Str
  extract_column_names : Str → Str → List Str

/-- Python `set.intersection` restricted to membership content. -/
def interL (a b : List Str) : List Str := a.filter (fun x => x ∈ b)

/-- Python `set.update` (union) restricted to membership content. -/
def unionL (a b : List Str) : List Str := a ++ b.filter (fun x => x ∉ a)

/-- `DBAccessAnalyzer._find_matching_sql_queries` (lines 291-328): a query is
kept iff its SQL text is non-empty, its referenced-table set contains the
target table case-insensitively, and at least one configured column occurs
among its referenced columns (lower-cased). -/
def findMatchingSqlQueries (strat : SqlStrategy) (queries : List SqlQueryInfo)
    (tableName : Str) (columns : List Str) : List SqlQueryInfo :=
  queries.filter (fun q =>
    if q.sql = [] then false
    else if lowerStr tableName ∈ (strat.extract_table_names q.sql).map lowerStr then
      !(interL columns ((strat.extract_column_names q.sql tableName).map lowerStr)).isEmpty
    else false)

/-- `DBAccessAnalyzer._extract_used_columns` (lines 470-501): the union over
the given queries of the configured columns observed in each query's SQL. -/
def extractUsedColumns (strat : SqlStrategy) (queries : List SqlQueryInfo)
    (tableName : Str) (configColumns : List Str) : List Str :=
  queries.foldl (fun used q =>
    if q.sql = [] then used
    else unionL used
      (interL configColumns ((strat.extract_column_names q.sql tableName).map lowerStr)))
    []

/-- The matched-query accumulation of `_analyze_table_access` (lines 216-256):
per parsed mapper file, the matching queries are appended in order into
`sql_queries`. -/
def collectMatchedQueries (strat : SqlStrategy) (xmlFiles : List (List SqlQueryInfo))
    (tableName : Str) (columns : List Str) : List SqlQueryInfo :=
  xmlFiles.foldl (fun acc qs => acc ++ findMatchingSqlQueries strat qs tableName columns) []

/-- The `columns` field of the produced `TableAccessInfo` (lines 269-281):
`_extract_used_columns` applied to exactly the matched queries (the source
then sorts the set into a list; this definition carries the membership
content). -/
def tableAccessColumns (strat : SqlStrategy) (xmlFiles : List (List SqlQueryInfo))
    (tableName : Str) (columns : List Str) : List Str :=
  extractUsedColumns strat (collectMatchedQueries strat xmlFiles tableName columns)
    tableName columns

/-- Helper: membership in the modelled set intersection. -/
theorem mem_interL {a b : List Str} {x : Str} : x ∈ interL a b ↔ x ∈ a ∧ x ∈ b := by
  unfold interL
  rw [List.mem_filter]
  simp

/-- Helper: membership in the modelled set union. -/
theorem mem_unionL {a b : List Str} {x : Str} : x ∈ unionL a b ↔ x ∈ a ∨ x ∈ b := by
  unfold unionL
  rw [List.mem_append, List.mem_filter]
  constructor
  · rintro (h | ⟨h, _⟩)
    · exact Or.inl h
    · exact Or.inr h
  · intro h
    by_cases hx : x ∈ a
    · exact Or.inl hx
    · rcases h with h | h
      · exact absurd h hx
      · exact Or.inr ⟨h, by simpa using hx⟩

/-- Helper: the modelled intersection is non-empty iff the sets share an
element. -/
theorem interL_isEmpty_false_iff {a b : List Str} :
    (interL a b).isEmpty = false ↔ ∃ x ∈ a, x ∈ b := by
  constructor
  · intro h
    cases hi : interL a b with
    | nil => rw [hi] at h; simp at h
    | cons x t =>
      have hx : x ∈ interL a b := by rw [hi]; exact List.mem_cons_self _ _
      exact ⟨x, (mem_interL.mp hx).1, (mem_interL.mp hx).2⟩
  · rintro ⟨x, hxa, hxb⟩
    have hx : x ∈ interL a b := mem_interL.mpr ⟨hxa, hxb⟩
    cases hi : interL a b with
    | nil => rw [hi] at hx; simp at hx
    | cons y t => simp [List.isEmpty]

/-- Helper: membership characterization of `extractUsedColumns`. -/
theorem mem_extractUsedColumns {strat : SqlStrategy} {queries : List SqlQueryInfo}
    {tableName : Str} {configColumns : List Str} {c : Str} :
    c ∈ extractUsedColumns strat queries tableName configColumns ↔
      ∃ q ∈ queries, q.sql ≠ [] ∧ c ∈ configColumns
        ∧ c ∈ (strat.extract_column_names q.sql tableName).map lowerStr := by
  unfold extractUsedColumns
  suffices h : ∀ acc : List Str,
      c ∈ queries.foldl (fun used q =>
        if q.sql = [] then used
        else unionL used
          (interL configColumns
            ((strat.extract_column_names q.sql tableName).map lowerStr))) acc ↔
      c ∈ acc ∨ ∃ q ∈ queries, q.sql ≠ [] ∧ c ∈ configColumns
        ∧ c ∈ (strat.extract_column_names q.sql tableName).map lowerStr by
    rw [h []]
    simp
  intro acc
  induction queries generalizing acc with
  | nil => simp
  | cons q rest ih =>
    simp only [List.foldl_cons]
    by_cases hq : q.sql = []
    · rw [if_pos hq, ih]
      constructor
      · rintro (h | ⟨q', hq', hrest⟩)
        · exact Or.inl h
        · exact Or.inr ⟨q', List.mem_cons_of_mem _ hq', hrest⟩
      · rintro (h | ⟨q', hq', hne, hrest⟩)
        · exact Or.inl h
        · rcases List.mem_cons.mp hq' with rfl | hq''
          · exact absurd hq hne
          · exact Or.inr ⟨q', hq'', hne, hrest⟩
    · rw [if_neg hq, ih]
      constructor
      · rintro (h | ⟨q', hq', hrest⟩)
        · rcases mem_unionL.mp h with h' | h'
          · exact Or.inl h'
          · exact Or.inr ⟨q, List.mem_cons_self _ _, hq, (mem_interL.mp h').1,
              (mem_interL.mp h').2⟩
        · exact Or.inr ⟨q', List.mem_cons_of_mem _ hq', hrest⟩
      · rintro (h | ⟨q', hq', hne, hc, hcol⟩)
        · exact Or.inl (mem_unionL.mpr (Or.inl h))
        · rcases List.mem_cons.mp hq' with rfl | hq''
          · exact Or.inl (mem_unionL.mpr (Or.inr (mem_interL.mpr ⟨hc, hcol⟩)))
          · exact Or.inr ⟨q', hq'', hne, hc, hcol⟩

/-- Helper: membership characterization of `collectMatchedQueries`. -/
theorem mem_collectMatchedQueries {strat : SqlStrategy}
    {xmlFiles : List (List SqlQueryInfo)} {tableName : Str} {columns : List Str}
    {q : SqlQueryInfo} :
    q ∈ collectMatchedQueries strat xmlFiles tableName columns ↔
      ∃ qs ∈ xmlFiles, q ∈ findMatchingSqlQueries strat qs tableName columns := by
  unfold collectMatchedQueries
  suffices h : ∀ acc : List SqlQueryInfo,
      q ∈ xmlFiles.foldl
        (fun acc qs => acc ++ findMatchingSqlQueries strat qs tableName columns) acc ↔
      q ∈ acc ∨ ∃ qs ∈ xmlFiles, q ∈ findMatchingSqlQueries strat qs tableName columns by
    rw [h []]
    simp
  intro acc
  induction xmlFiles generalizing acc with
  | nil => simp
  | cons qs rest ih =>
    simp only [List.foldl_cons]
    rw [ih]
    constructor
    · rintro (h | ⟨qs', hqs', hq⟩)
      · rcases List.mem_append.mp h with h' | h'
        · exact Or.inl h'
        · exact Or.inr ⟨qs, List.mem_cons_self _ _, h'⟩
      · exact Or.inr ⟨qs', List.mem_cons_of_mem _ hqs', hq⟩
    · rintro (h | ⟨qs', hqs', hq⟩)
      · exact Or.inl (List.mem_append.mpr (Or.inl h))
      · rcases List.mem_cons.mp hqs' with rfl | hqs''
        · exact Or.inl (List.mem_append.mpr (Or.inr hq))
        · exact Or.inr ⟨qs', hqs'', hq⟩

/-- Helper: a matched query has non-empty SQL text. -/
theorem matched_sql_ne_nil {strat : SqlStrategy} {queries : List SqlQueryInfo}
    {tableName : Str} {columns : List Str} {q : SqlQueryInfo}
    (h : q ∈ findMatchingSqlQueries strat queries tableName columns) : q.sql ≠ [] := by
  have := (List.mem_filter.mp h).2
  intro hnil
  rw [if_pos hnil] at this
  simp at this

/-- C3: a query matches a configured table iff its referenced-table set
contains the target table name case-insensitively and the intersection of its
referenced columns with the configured column set is non-empty; and the
`columns` field of the resulting `TableAccessInfo` is exactly the union, over
matched queries, of configured columns observed in the query — in particular a
column outside the configuration never appears in it.  The hypothesis states
the evident property of the external SQL strategy that an empty query text
references no tables. -/
theorem c3_db_correlation (strat : SqlStrategy)
    (hempty : strat.extract_table_names [] = []) :
    (∀ (queries : List SqlQueryInfo) (tableName : Str) (columns : List Str)
        (q : SqlQueryInfo),
      q ∈ findMatchingSqlQueries strat queries tableName columns ↔
        q ∈ queries
        ∧ lowerStr tableName ∈ (strat.extract_table_names q.sql).map lowerStr
        ∧ ∃ c ∈ columns, c ∈ (strat.extract_column_names q.sql tableName).map lowerStr)
  ∧ (∀ (xmlFiles : List (List SqlQueryInfo)) (tableName : Str) (columns : List Str)
        (c : Str),
      c ∈ tableAccessColumns strat xmlFiles tableName columns ↔
        ∃ q ∈ collectMatchedQueries strat xmlFiles tableName columns,
          c ∈ columns ∧ c ∈ (strat.extract_column_names q.sql tableName).map lowerStr)
  ∧ (∀ (xmlFiles : List (List SqlQueryInfo)) (tableName : Str) (columns : List Str)
        (c : Str),
      c ∈ tableAccessColumns strat xmlFiles tableName columns → c ∈ columns) := by
  have hmatch : ∀ (queries : List SqlQueryInfo) (tableName : Str) (columns : List Str)
      (q : SqlQueryInfo),
      q ∈ findMatchingSqlQueries strat queries tableName columns ↔
        q ∈ queries
        ∧ lowerStr tableName ∈ (strat.extract_table_names q.sql).map lowerStr
        ∧ ∃ c ∈ columns, c ∈ (strat.extract_column_names q.sql tableName).map lowerStr := by
    intro queries tableName columns q
    unfold findMatchingSqlQueries
    rw [List.mem_filter]
    constructor
    · rintro ⟨hq, hp⟩
      by_cases hnil : q.sql = []
      · rw [if_pos hnil] at hp; simp at hp
      · rw [if_neg hnil] at hp
        by_cases htab : lowerStr tableName
            ∈ (strat.extract_table_names q.sql).map lowerStr
        · rw [if_pos htab] at hp
          simp only [Bool.not_eq_true'] at hp
          exact ⟨hq, htab, interL_isEmpty_false_iff.mp hp⟩
        · rw [if_neg htab] at hp; simp at hp
    · rintro ⟨hq, htab, hcol⟩
      refine ⟨hq, ?_⟩
      have hnil : q.sql ≠ [] := by
        intro hnil
        rw [hnil, hempty] at htab
        simp at htab
      rw [if_neg hnil, if_pos htab]
      simp only [Bool.not_eq_true']
      exact interL_isEmpty_false_iff.mpr hcol
  have hcols : ∀ (xmlFiles : List (List SqlQueryInfo)) (tableName : Str)
      (columns : List Str) (c : Str),
      c ∈ tableAccessColumns strat xmlFiles tableName columns ↔
        ∃ q ∈ collectMatchedQueries strat xmlFiles tableName columns,
          c ∈ columns ∧ c ∈ (strat.extract_column_names q.sql tableName).map lowerStr := by
    intro xmlFiles tableName columns c
    unfold tableAccessColumns
    rw [mem_extractUsedColumns]
    constructor
    · rintro ⟨q, hq, _, hc, hcol⟩
      exact ⟨q, hq, hc, hcol⟩
    · rintro ⟨q, hq, hc, hcol⟩
      obtain ⟨qs, _, hq'⟩ := mem_collectMatchedQueries.mp hq
      exact ⟨q, hq, matched_sql_ne_nil hq', hc, hcol⟩
  exact ⟨hmatch, hcols, fun xmlFiles tableName columns c hc =>
    ((hcols xmlFiles tableName columns c).mp hc).elim (fun q h => h.2.1)⟩

/-- Witness strategy for C3: any non-empty query references table `orders`
with columns `id`, `total`, `status` (the spec's example query
`SELECT id, total FROM orders WHERE status=?`). -/
def c3Strategy : SqlStrategy :=
  ⟨fun sql => if sql = [] then [] else ["orders".data],
   fun sql _ => if sql = [] then [] else ["id".data, "total".data, "status".data]⟩

/-- Witness query record for C3. -/
def c3Query : SqlQueryInfo :=
  ⟨"OrderMapper".data, "sel".data, "SELECT id, total FROM orders WHERE status=?".data,
   none⟩

/-- Witness for C3: the example query matches table `orders` with configured
columns `{id, status}`, and the unconfigured column `total` never appears in
the output columns. -/
theorem c3_db_correlation_witness :
    c3Query ∈ findMatchingSqlQueries c3Strategy [c3Query] "orders".data
      ["id".data, "status".data]
  ∧ "total".data ∉ tableAccessColumns c3Strategy [[c3Query]] "orders".data
      ["id".data, "status".data] :=
  ⟨((c3_db_correlation c3Strategy rfl).1 [c3Query] "orders".data
      ["id".data, "status".data] c3Query).mpr
      ⟨by decide, by decide, "id".data, by decide, by decide⟩,
   fun h => absurd ((c3_db_correlation c3Strategy rfl).2.2 [[c3Query]] "orders".data
      ["id".data, "status".data] "total".data h) (by decide)⟩

/-! ## Extractor `parse_file` (`java_ast_parser.py`, lines 118-171) -/

/-- An opaque tree-sitter AST handle (the external parser's tree). -/
structure ParseTree where
  treeId : Nat
deriving DecidableEq, Repr

/-- The outcome of opening/decoding the file under one encoding: a decoded
content, a `UnicodeDecodeError`, or any other exception — both failure kinds
make the source move on to the next encoding (lines 145-155). -/
inductive ReadOutcome where
  | ok (content : Str)
  | decodeError
  | otherError
deriving DecidableEq, Repr

/-- The ordered encoding list (line 142). -/
def encodings : List Str :=
  ["utf-8".data, "euc-kr".data, "cp949".data, "latin-1".data, "iso-8859-1".data]

/-- The encoding loop (lines 144-155): the content under the first encoding
that decodes, if any. -/
def tryEncodings (readF : Str → ReadOutcome) : List Str → Option Str
  | [] => none
  | e :: rest =>
    match readF e with
    | .ok content => some content
    | _ => tryEncodings readF rest

/-- The "no supported encoding" error (line 158; the source formats a message
naming the attempted encodings — this constant stands for that message). -/
def noSupportedEncodingError : Str :=
  "cannot read file: no supported encoding found".data

/-- `JavaASTParser.parse_file` (lines 118-171), returning the `(tree, error)`
pair: the cached tree when present, otherwise the parse of the first
successful decode (tree-sitter's `parse` is a total function returning a tree,
possibly with error nodes, rather than raising on malformed syntax), otherwise
no tree together with the "no supported encoding" error.  The source wraps the
whole body in a catch-all `try`/`except` that converts any exception into an
error tuple, so `parse_file` never raises; the embedding is correspondingly a
total function into the pair type. -/
def parseFile (cached : Option ParseTree) (readF : Str → ReadOutcome)
    (parseF : Str → ParseTree) : Option ParseTree × Option Str :=
  match cached with
  | some t => (some t, none)
  | none =>
    match tryEncodings readF encodings with
    | some src => (some (parseF src), none)
    | none => (none, some noSupportedEncodingError)

/-- Helper: when every encoding fails to decode, the encoding loop yields
nothing. -/
theorem tryEncodings_eq_none {readF : Str → ReadOutcome} :
    ∀ es : List Str, (∀ enc ∈ es, ∀ c, readF enc ≠ .ok c) →
      tryEncodings readF es = none := by
  intro es
  induction es with
  | nil => intro _; rfl
  | cons e rest ih =>
    intro h
    simp only [tryEncodings]
    cases hr : readF e with
    | ok content => exact absurd hr (h e (List.mem_cons_self _ _) content)
    | decodeError => exact ih (fun enc he c => h enc (List.mem_cons_of_mem _ he) c)
    | otherError => exact ih (fun enc he c => h enc (List.mem_cons_of_mem _ he) c)

/-- C9: `parse_file` never raises — it returns either a parsed tree with no
error or no tree with a descriptive error message; and when no encoding in the
ordered list decodes the file (cache empty), it returns the "no supported
encoding" error rather than propagating an exception. -/
theorem c9_parse_file_never_raises (cached : Option ParseTree)
    (readF : Str → ReadOutcome) (parseF : Str → ParseTree) :
    ((∃ t, parseFile cached readF parseF = (some t, none))
      ∨ ∃ e, parseFile cached readF parseF = (none, some e))
  ∧ ((cached = none ∧ ∀ enc ∈ encodings, ∀ c, readF enc ≠ .ok c) →
      parseFile cached readF parseF = (none, some noSupportedEncodingError)) := by
  constructor
  · cases cached with
    | some t => exact Or.inl ⟨t, rfl⟩
    | none =>
      cases h : tryEncodings readF encodings with
      | some src =>
        exact Or.inl ⟨parseF src, by simp [parseFile, h]⟩
      | none =>
        exact Or.inr ⟨noSupportedEncodingError, by simp [parseFile, h]⟩
  · rintro ⟨hc, hfail⟩
    subst hc
    have h := tryEncodings_eq_none encodings hfail
    simp [parseFile, h]

/-- Witness for C9: with an empty cache and every encoding failing to decode,
`parse_file` returns no tree and the "no supported encoding" error. -/
theorem c9_parse_file_never_raises_witness :
    parseFile none (fun _ => ReadOutcome.decodeError) (fun _ => ⟨0⟩)
      = (none, some noSupportedEncodingError) :=
  (c9_parse_file_never_raises none (fun _ => ReadOutcome.decodeError) (fun _ => ⟨0⟩)).2
    ⟨rfl, fun _ _ _ h => ReadOutcome.noConfusion h⟩

end ApplyCrypto
